import Mathlib

/-!
Verification of the segment-coordinator core of the `tur` download manager.

The definitions below are a shallow embedding of the Rust sources:
  * `src/src-tauri/src/download.rs`               (partition table `RANGE`, `Download::get_index`)
  * `src/src-tauri/src/downloads/download.rs`     (`Download`, journal encode/decode, `get_index`)
  * `src/src-tauri/src/downloads/coordinator.rs`  (`Coordinator`, `new_range`, `steal_range`)
  * `src/src-tauri/src/downloads/workers.rs`      (`run_download` mode choice, `stream_range`)
  * `src/src-tauri/src/downloads/manager.rs`      (`handle_resume_downloads`, `pause_instance`)

Machine integers (`u8`, `usize`) are modelled as `Nat`; the values handled by the
program stay far below `2 ^ 64`, and Rust's saturating subtraction coincides with
`Nat` subtraction.
-/

/-- The compile-time partition table `RANGE` from `src/src-tauri/src/download.rs`
(also imported by the `downloads` module as `constants::RANGE`).  Each entry is a
half-open interval in units of 8 MiB (`2 ^ 23` bytes).  The Rust constant is
declared as `[Range<usize>; 59]`. -/
def RANGE : List (Nat × Nat) :=
  [(0, 1), (1, 2), (2, 4), (4, 7), (7, 12), (12, 20), (20, 33), (33, 54),
   (54, 88), (88, 143), (143, 232), (232, 376), (376, 609), (609, 986),
   (986, 1596), (1596, 2583), (2583, 4180), (4180, 6764), (6764, 10945),
   (10945, 17710), (17710, 28656), (28656, 46367), (46367, 75024),
   (75024, 121392), (121392, 196417), (196417, 317810), (317810, 514228),
   (514228, 832039), (832039, 1346268), (1346268, 2178308), (2178308, 3524577),
   (3524577, 5702886), (5702886, 9227464), (9227464, 14930351),
   (14930351, 24157816), (24157816, 39088168), (39088168, 63245985),
   (63245985, 102334154), (102334154, 165580140), (165580140, 267914295),
   (267914295, 433494436), (433494436, 701408732), (701408732, 1134903169),
   (1134903169, 1836311902), (1836311902, 2971215072), (2971215072, 4807526975),
   (4807526975, 7778742048), (7778742048, 12586269024), (12586269024, 20365011073),
   (20365011073, 32951280098), (32951280098, 53316291172), (53316291172, 86267571271),
   (86267571271, 139583862444), (139583862444, 225851433716), (225851433716, 365435296161),
   (365435296161, 591286729878), (591286729878, 956722026040), (956722026040, 1548008755918),
   (1548008755918, 2199023255552)]

/-- `RANGE[i].start` (`0` when out of bounds; the Rust code never indexes out of
bounds where this matters). -/
def rangeStart (i : Nat) : Nat := (RANGE.getD i (0, 0)).1

/-- `RANGE[i].end`. -/
def rangeStop (i : Nat) : Nat := (RANGE.getD i (0, 0)).2

/-- `RANGE[i].start` extended past the table with the final boundary
`2199023255552 = 2 ^ 41`; by contiguity this makes `rangeStop i = rangeStartExt (i + 1)`
for every `i < 59`.  (Proof device used to state coordinator invariants.) -/
def rangeStartExt (i : Nat) : Nat := if i < 59 then rangeStart i else 2199023255552

/-- The `while lo < hi` binary-search loop of `Download::get_index`
(`src/src-tauri/src/downloads/download.rs`, lines 91–98), with an explicit fuel
for the loop; the caller passes fuel `59`, an upper bound on `hi - lo`, so the
fuel never runs out. -/
def getIndexLoop : Nat → Nat → Nat → Nat → Nat
  | 0, _, lo, _ => lo
  | fuel + 1, v, lo, hi =>
    if lo < hi then
      if rangeStart ((lo + hi) / 2) < v then getIndexLoop fuel v ((lo + hi) / 2 + 1) hi
      else getIndexLoop fuel v lo ((lo + hi) / 2)
    else lo

/-- `Download::get_index` from `src/src-tauri/src/downloads/download.rs`
(the copy in `src/src-tauri/src/download.rs` differs only in lacking the `v == 0`
shortcut, which does not change the result): binary search for a `RANGE` index,
`None` when `lo` reaches the table length. -/
def get_index (v : Nat) : Option Nat :=
  if v = 0 then some 0
  else
    let lo : Nat := if v ≤ rangeStart 13 then 0 else 13
    let hi : Nat := if v ≤ rangeStart 13 then 12 else 59
    let r := getIndexLoop 59 v lo hi
    if r < RANGE.length then some r else none

theorem range_length_eq : RANGE.length = 59 := by decide

theorem rangeStart_mono : ∀ j, j < 59 → ∀ i, i < j → rangeStart i < rangeStart j := by decide

theorem rangeStart_lt_rangeStop : ∀ i, i < 59 → rangeStart i < rangeStop i := by decide

theorem range_contiguous : ∀ i, i < 58 → rangeStop i = rangeStart (i + 1) := by decide

theorem rangeStart_le_of_lt_13 : ∀ j, j < 13 → rangeStart j ≤ 376 := by decide

theorem rangeStart_le_of_lt_12 : ∀ j, j < 12 → rangeStart j ≤ 232 := by decide

/-- Invariant of the binary-search loop: the result stays in `[lo, hi]`, every
index strictly below the result has `start < v`, and if the result is below `hi`
then its `start` is `≥ v`. -/
theorem getIndexLoop_spec (v : Nat) :
    ∀ fuel lo hi : Nat, hi - lo ≤ fuel → lo ≤ hi → hi ≤ 59 →
      lo ≤ getIndexLoop fuel v lo hi ∧ getIndexLoop fuel v lo hi ≤ hi ∧
      (∀ j, lo ≤ j → j < getIndexLoop fuel v lo hi → rangeStart j < v) ∧
      (getIndexLoop fuel v lo hi < hi → v ≤ rangeStart (getIndexLoop fuel v lo hi)) := by
  intro fuel
  induction fuel with
  | zero =>
    intro lo hi h1 h2 _
    have hlh : lo = hi := by omega
    subst hlh
    simp only [getIndexLoop]
    exact ⟨Nat.le_refl _, Nat.le_refl _, fun j hj1 hj2 => absurd (Nat.lt_of_le_of_lt hj1 hj2) (by omega), fun h => absurd h (by omega)⟩
  | succ n ih =>
    intro lo hi h1 h2 h3
    by_cases hlt : lo < hi
    · have hmlo : lo ≤ (lo + hi) / 2 := by omega
      have hmhi : (lo + hi) / 2 < hi := by omega
      by_cases hv : rangeStart ((lo + hi) / 2) < v
      · have hrw : getIndexLoop (n + 1) v lo hi = getIndexLoop n v ((lo + hi) / 2 + 1) hi := by
          simp only [getIndexLoop, if_pos hlt, if_pos hv]
        obtain ⟨a, b, c, d⟩ := ih ((lo + hi) / 2 + 1) hi (by omega) (by omega) h3
        rw [hrw]
        refine ⟨by omega, b, ?_, d⟩
        intro j hj1 hj2
        rcases Nat.lt_or_ge j ((lo + hi) / 2 + 1) with hj | hj
        · rcases Nat.lt_or_eq_of_le (Nat.lt_succ_iff.mp hj) with hjm | hjm
          · exact Nat.lt_trans (rangeStart_mono ((lo + hi) / 2) (by omega) j hjm) hv
          · rw [hjm]; exact hv
        · exact c j hj hj2
      · have hrw : getIndexLoop (n + 1) v lo hi = getIndexLoop n v lo ((lo + hi) / 2) := by
          simp only [getIndexLoop, if_pos hlt, if_neg hv]
        obtain ⟨a, b, c, d⟩ := ih lo ((lo + hi) / 2) (by omega) hmlo (by omega)
        rw [hrw]
        refine ⟨a, by omega, c, ?_⟩
        intro _
        rcases Nat.lt_or_ge (getIndexLoop n v lo ((lo + hi) / 2)) ((lo + hi) / 2) with h | h
        · exact d h
        · have heq : getIndexLoop n v lo ((lo + hi) / 2) = (lo + hi) / 2 := by omega
          rw [heq]
          exact Nat.le_of_not_lt hv
    · have hrw : getIndexLoop (n + 1) v lo hi = lo := by
        simp only [getIndexLoop, if_neg hlt]
      rw [hrw]
      exact ⟨Nat.le_refl _, h2, fun j hj1 hj2 => absurd (Nat.lt_of_le_of_lt hj1 hj2) (by omega), fun h => absurd h hlt⟩

/-- Whenever `get_index` returns an index, that index is at most 59 and every
strictly smaller index has `start < v`.  (This is the half of the lower-bound
property that does hold on the code; it is what coverage of `[0, total_size)`
by the handed-out prefix of the table relies on.) -/
theorem get_index_below_start (v r : Nat) (h : get_index v = some r) :
    r ≤ 59 ∧ ∀ j, j < r → rangeStart j < v := by
  by_cases hv : v = 0
  · subst hv
    rw [show get_index 0 = some 0 from by decide] at h
    have hr0 : r = 0 := by injection h with h; omega
    subst hr0
    exact ⟨by omega, fun j hj => absurd hj (by omega)⟩
  · simp only [get_index, if_neg hv] at h
    by_cases hb : v ≤ rangeStart 13
    · rw [if_pos hb, if_pos hb] at h
      obtain ⟨a, b, c, _⟩ := getIndexLoop_spec v 59 0 12 (by omega) (by omega) (by omega)
      by_cases hr : getIndexLoop 59 v 0 12 < RANGE.length
      · rw [if_pos hr] at h
        have hre : getIndexLoop 59 v 0 12 = r := Option.some.inj h
        rw [hre] at b c
        exact ⟨by omega, fun j hj => c j (Nat.zero_le _) hj⟩
      · rw [if_neg hr] at h; exact absurd h (by simp)
    · rw [if_neg hb, if_neg hb] at h
      have hv609 : 609 < v := by
        have : rangeStart 13 = 609 := by decide
        omega
      obtain ⟨a, b, c, _⟩ := getIndexLoop_spec v 59 13 59 (by omega) (by omega) (by omega)
      by_cases hr : getIndexLoop 59 v 13 59 < RANGE.length
      · rw [if_pos hr] at h
        have hre : getIndexLoop 59 v 13 59 = r := Option.some.inj h
        rw [hre] at a b c
        refine ⟨by omega, fun j hj => ?_⟩
        rcases Nat.lt_or_ge j 13 with hj13 | hj13
        · have := rangeStart_le_of_lt_13 j hj13
          omega
        · exact c j hj13 hj
      · rw [if_neg hr] at h; exact absurd h (by simp)

theorem rangeStart_le_max : ∀ j, j < 59 → rangeStart j ≤ 1548008755918 := by decide

/-- C3 counterexample: the partition table does not have 60 entries. -/
theorem range_table_not_sixty : RANGE.length ≠ 60 := by decide

/-- C3 (amended): the partition table has exactly 59 entries, every entry is a
nonempty interval, adjacent entries are contiguous (`table[i].end = table[i+1].start`,
hence the starts are strictly increasing), the table begins with
`[0,1), [1,2), [2,4), [4,7), [7,12)` and ends at `2199023255552 = 2 ^ 41` units. -/
theorem range_table_facts :
    RANGE.length = 59 ∧
    (∀ i, i < 58 → rangeStop i = rangeStart (i + 1)) ∧
    (∀ i, i < 59 → rangeStart i < rangeStop i) ∧
    (∀ j, j < 59 → ∀ i, i < j → rangeStart i < rangeStart j) ∧
    RANGE.take 5 = [(0, 1), (1, 2), (2, 4), (4, 7), (7, 12)] ∧
    rangeStop 58 = 2199023255552 := by
  exact ⟨range_length_eq, range_contiguous, rangeStart_lt_rangeStop, rangeStart_mono, by decide, by decide⟩

/-- Witness for C3: instantiating the bounded statements of `range_table_facts`
at concrete indices. -/
theorem range_table_facts_witness :
    rangeStop 3 = rangeStart 4 ∧ rangeStart 3 < rangeStop 3 ∧ rangeStart 2 < rangeStart 7 := by
  exact ⟨range_table_facts.2.1 3 (by decide), range_table_facts.2.2.1 3 (by decide),
    range_table_facts.2.2.2.1 7 (by decide) 2 (by decide)⟩

/-- C4 counterexample: at `v = 400` the binary search returns index `12`, whose
`start` is `376 < 400`; the claim demands the smallest `i` with `table[i].start ≥ v`
(which would be `13`). -/
theorem get_index_not_lower_bound_at_400 :
    get_index 400 = some 12 ∧ rangeStart 12 < 400 := by decide

/-- C4 (amended): `get_index v` is the lower-bound search the claim describes for
`v ≤ 376` and for `v ≥ 610`; but for `377 ≤ v ≤ 609` the search is capped at
index 12 (the code initialises `hi = 12` instead of `13`) and returns `12` even
though `table[12].start = 376 < v`.  `none` (the sentinel) is returned exactly
when `v` exceeds the last entry's start, `1548008755918`. -/
theorem get_index_characterization (v : Nat) :
    (v = 0 → get_index v = some 0) ∧
    (1 ≤ v → v ≤ 376 → ∀ i, get_index v = some i →
        v ≤ rangeStart i ∧ ∀ j, j < i → rangeStart j < v) ∧
    (377 ≤ v → v ≤ 609 → get_index v = some 12 ∧ rangeStart 12 < v) ∧
    (610 ≤ v → ∀ i, get_index v = some i →
        v ≤ rangeStart i ∧ ∀ j, j < i → rangeStart j < v) ∧
    (get_index v = none ↔ 1548008755918 < v) := by
  have h13 : rangeStart 13 = 609 := by decide
  have h12 : rangeStart 12 = 376 := by decide
  have h58 : rangeStart 58 = 1548008755918 := by decide
  have hlen : RANGE.length = 59 := range_length_eq
  refine ⟨?_, ?_, ?_, ?_, ?_⟩
  · intro hv; subst hv; decide
  · intro hv1 hv2 i hi
    have hvne : ¬(v = 0) := by omega
    have hb : v ≤ rangeStart 13 := by omega
    simp only [get_index, if_neg hvne] at hi
    rw [if_pos hb, if_pos hb] at hi
    obtain ⟨a, b, c, d⟩ := getIndexLoop_spec v 59 0 12 (by omega) (by omega) (by omega)
    by_cases hr : getIndexLoop 59 v 0 12 < RANGE.length
    · rw [if_pos hr] at hi
      have hre : getIndexLoop 59 v 0 12 = i := Option.some.inj hi
      rw [hre] at b c d
      refine ⟨?_, fun j hj => c j (Nat.zero_le _) hj⟩
      rcases Nat.lt_or_ge i 12 with h | h
      · exact d h
      · have : i = 12 := by omega
        rw [this]; omega
    · rw [if_neg hr] at hi; exact absurd hi (by simp)
  · intro hv1 hv2
    have hvne : ¬(v = 0) := by omega
    have hb : v ≤ rangeStart 13 := by omega
    obtain ⟨a, b, c, d⟩ := getIndexLoop_spec v 59 0 12 (by omega) (by omega) (by omega)
    have hr12 : getIndexLoop 59 v 0 12 = 12 := by
      rcases Nat.lt_or_ge (getIndexLoop 59 v 0 12) 12 with h | h
      · have hd := d h
        have := rangeStart_le_of_lt_12 _ h
        omega
      · omega
    constructor
    · simp only [get_index, if_neg hvne]
      rw [if_pos hb, if_pos hb, hr12, if_pos (by omega)]
    · omega
  · intro hv1 i hi
    have hvne : ¬(v = 0) := by omega
    have hb : ¬(v ≤ rangeStart 13) := by omega
    simp only [get_index, if_neg hvne] at hi
    rw [if_neg hb, if_neg hb] at hi
    obtain ⟨a, b, c, d⟩ := getIndexLoop_spec v 59 13 59 (by omega) (by omega) (by omega)
    by_cases hr : getIndexLoop 59 v 13 59 < RANGE.length
    · rw [if_pos hr] at hi
      have hre : getIndexLoop 59 v 13 59 = i := Option.some.inj hi
      rw [hre] at a b c d
      refine ⟨d (by omega), fun j hj => ?_⟩
      rcases Nat.lt_or_ge j 13 with hj13 | hj13
      · have := rangeStart_le_of_lt_13 j hj13
        omega
      · exact c j hj13 hj
    · rw [if_neg hr] at hi; exact absurd hi (by simp)
  · constructor
    · intro hn
      by_cases hv0 : v = 0
      · subst hv0; rw [show get_index 0 = some 0 from by decide] at hn; exact absurd hn (by simp)
      · by_cases hb : v ≤ rangeStart 13
        · obtain ⟨a, b, c, d⟩ := getIndexLoop_spec v 59 0 12 (by omega) (by omega) (by omega)
          simp only [get_index, if_neg hv0] at hn
          rw [if_pos hb, if_pos hb, if_pos (by omega)] at hn
          exact absurd hn (by simp)
        · obtain ⟨a, b, c, d⟩ := getIndexLoop_spec v 59 13 59 (by omega) (by omega) (by omega)
          simp only [get_index, if_neg hv0] at hn
          rw [if_neg hb, if_neg hb] at hn
          by_cases hr : getIndexLoop 59 v 13 59 < RANGE.length
          · rw [if_pos hr] at hn; exact absurd hn (by simp)
          · have h59 : getIndexLoop 59 v 13 59 = 59 := by omega
            have := c 58 (by omega) (by omega)
            omega
    · intro hv
      have hv0 : ¬(v = 0) := by omega
      have hb : ¬(v ≤ rangeStart 13) := by omega
      obtain ⟨a, b, c, d⟩ := getIndexLoop_spec v 59 13 59 (by omega) (by omega) (by omega)
      have h59 : getIndexLoop 59 v 13 59 = 59 := by
        rcases Nat.lt_or_ge (getIndexLoop 59 v 13 59) 59 with h | h
        · have hd := d h
          have := rangeStart_le_max _ h
          omega
        · omega
      simp only [get_index, if_neg hv0]
      rw [if_neg hb, if_neg hb, h59, if_neg (by omega)]

/-- Witness for C4: the amended characterization applied at `v = 500` (the capped
window) and `v = 100` (the well-behaved window). -/
theorem get_index_characterization_witness :
    (get_index 500 = some 12 ∧ rangeStart 12 < 500) ∧
    (100 ≤ rangeStart 10 ∧ ∀ j, j < 10 → rangeStart j < 100) := by
  refine ⟨(get_index_characterization 500).2.2.1 (by omega) (by omega),
    (get_index_characterization 100).2.1 (by omega) (by omega) 10 (by decide)⟩

/-- A segment cursor, `Index` in `src/src-tauri/src/downloads/index.rs`: a pair
of atomic words `start`/`end` in absolute file bytes (`end` is a reserved word
in Lean, so the field is called `stop`). -/
structure Cursor where
  start : Nat
  stop : Nat
deriving DecidableEq

/-- `Coordinator` from `src/src-tauri/src/downloads/coordinator.rs`.  The Rust
field `range_byte : Range<u8>` is split into its two endpoints. -/
structure Coordinator where
  rangeByteStart : Nat
  rangeByteEnd : Nat
  steal_ptr : Nat
  steal_exhausted : Bool
  total_size : Nat
deriving DecidableEq

/-- `MIN_STEAL_BYTES` from `src/src-tauri/src/downloads/workers.rs` (1 MiB). -/
def MIN_STEAL_BYTES : Nat := 1024 * 1024

/-- `Coordinator::new(max_index, total_size)`. -/
def Coordinator.new (max_index total_size : Nat) : Coordinator :=
  ⟨0, max_index, 2, false, total_size⟩

/-- `Coordinator::new_range` (coordinator.rs lines 59–82): hand out the next
partition-table entry, converted from 8-MiB units to bytes (`<< 23`) with the
end clamped to `total_size` by `min`, and push the new cursor. -/
def new_range (c : Coordinator) (range_vec : List Cursor) :
    Coordinator × List Cursor × Option (Nat × Nat) :=
  if c.rangeByteStart < c.rangeByteEnd then
    ({ c with rangeByteStart := c.rangeByteStart + 1 },
     range_vec ++ [⟨rangeStart c.rangeByteStart <<< 23,
                   min (rangeStop c.rangeByteStart <<< 23) c.total_size⟩],
     some (rangeStart c.rangeByteStart <<< 23,
           min (rangeStop c.rangeByteStart <<< 23) c.total_size))
  else (c, range_vec, none)

/-- Round-to-nearest, ties-to-even, of the rational `n / d` to an integer —
IEEE 754's default rounding, used below to model `f32` arithmetic. -/
def rne (n d : Nat) : Nat :=
  if d < 2 * (n % d) ∨ (2 * (n % d) = d ∧ (n / d) % 2 = 1) then n / d + 1 else n / d

/-- `⌊log₂ n⌋` by fuelled halving; fuel 128 is exact for every `n < 2¹²⁸`,
far above anything reachable here (`usize` values and their products with the
25-bit significand of `0.382f32`). -/
def log2fuel : Nat → Nat → Nat
  | 0, _ => 0
  | fuel + 1, n => if n < 2 then 0 else log2fuel fuel (n / 2) + 1

/-- Round a positive integer significand to 24 bits, IEEE-754
round-nearest-ties-to-even.  `f32Signif p` is the significand-scaled value of
rounding `p · 2^e` to `f32` for any exponent `e`: the exponent does not affect
which 24 bits are kept, and no value in this development approaches `f32`'s
exponent range. -/
def f32Signif (p : Nat) : Nat :=
  if p < 2 ^ 24 then p
  else
    let k := log2fuel 128 p - 23
    rne p (2 ^ k) * 2 ^ k

/-- The `f32` literal `0.382`: `0.382 ∈ [2⁻², 2⁻¹)`, so its ulp is `2⁻²⁵` and
its value is `rne (0.382 · 2²⁵) · 2⁻²⁵ = 12817793 · 2⁻²⁵`. -/
def F382 : Nat := rne (382 * 2 ^ 25) 1000

/-- The steal amount `((remaining as f32) * 0.382).ceil() as usize` from
coordinator.rs line 136, modelled bit-exactly over the naturals:
`remaining as f32` rounds the integer to 24 significant bits (`f32Signif`);
the product with `0.382f32 = F382 · 2⁻²⁵` is computed exactly and rounded to
24 significant bits again (an `f32` multiplication); `.ceil()` is exact on
`f32` and `as usize` truncates the resulting non-negative integer.  The value
is `⌈f32Signif (f32Signif remaining · F382) · 2⁻²⁵⌉`. -/
def steal_amount_of (remaining : Nat) : Nat :=
  (f32Signif (f32Signif remaining * F382) + 2 ^ 25 - 1) / 2 ^ 25

/-- The candidate-scan loop of `Coordinator::steal_range` (coordinator.rs lines
117–159).  In this sequential embedding the `compare_exchange` always succeeds,
so the loop's effect is: return the first eligible victim in the rotated order
(`(steal_ptr + attempt) % len`, skipping indices `< 2` and remainders
`≤ min_steal_bytes`) together with its shrunken end and its current end. -/
def stealCandidate (indices : List Cursor) (min_steal_bytes start_ptr : Nat) :
    Option (Nat × Nat × Nat) :=
  (List.range indices.length).findSome? fun attempt =>
    if (start_ptr + attempt) % indices.length < 2 then none
    else if (indices.getD ((start_ptr + attempt) % indices.length) ⟨0, 0⟩).stop
            - (indices.getD ((start_ptr + attempt) % indices.length) ⟨0, 0⟩).start
            ≤ min_steal_bytes then none
    else some ((start_ptr + attempt) % indices.length,
      (indices.getD ((start_ptr + attempt) % indices.length) ⟨0, 0⟩).stop
        - steal_amount_of
            ((indices.getD ((start_ptr + attempt) % indices.length) ⟨0, 0⟩).stop
              - (indices.getD ((start_ptr + attempt) % indices.length) ⟨0, 0⟩).start),
      (indices.getD ((start_ptr + attempt) % indices.length) ⟨0, 0⟩).stop)

/-- `Coordinator::steal_range` (coordinator.rs lines 104–164): guard on
`steal_exhausted || len < 3`; on a successful candidate, shrink the victim's
end, push the stolen tail as a new cursor, advance `steal_ptr`; after a full
fruitless cycle set `steal_exhausted` and return `none`. -/
def steal_range (c : Coordinator) (indices : List Cursor) (min_steal_bytes : Nat) :
    Coordinator × List Cursor × Option (Nat × Nat) :=
  if c.steal_exhausted = true ∨ indices.length < 3 then (c, indices, none)
  else
    match stealCandidate indices min_steal_bytes c.steal_ptr with
    | some (target, new_end, current_end) =>
        ({ c with steal_ptr := (target + 1) % indices.length },
         (indices.set target { indices.getD target ⟨0, 0⟩ with stop := new_end })
           ++ [⟨new_end, current_end⟩],
         some (new_end, current_end))
    | none => ({ c with steal_exhausted := true }, indices, none)

/-- `Coordinator::request_work` (coordinator.rs lines 86–98): new range first,
then steal. -/
def request_work (c : Coordinator) (range_vec : List Cursor) (min_steal_bytes : Nat) :
    Coordinator × List Cursor × Option (Nat × Nat) :=
  match new_range c range_vec with
  | (c', cs', some r) => (c', cs', some r)
  | (c', cs', none) => steal_range c' cs' min_steal_bytes

/-- The `Download` struct from `src/src-tauri/src/downloads/download.rs`. -/
structure Download where
  coordinator : Coordinator
  range : List Cursor
deriving DecidableEq

/-- `Download::new(size, num_conn)` (downloads/download.rs lines 73–79):
`max_index = get_index(size >> 23).unwrap_or(0)`.  The source calls
`Coordinator::new(max_index)` while `Coordinator::new` takes
`(max_index, total_size)`; the composition that type-checks (and the one
`new_range`'s clamping requires) passes the file size as `total_size`.
`num_conn` only sizes the vector's capacity. -/
def Download.new (size : Nat) (num_conn : Nat) : Download :=
  ⟨Coordinator.new ((get_index (size >>> 23)).getD 0) size, []⟩

/-- Repeatedly call `new_range` until it returns `none` — the ranges the
coordinator hands out before any stealing can happen.  Fuel 59 bounds the
table length. -/
def allocateAllFrom : Nat → Coordinator → List Cursor → Coordinator × List Cursor
  | 0, c, cs => (c, cs)
  | fuel + 1, c, cs =>
    match new_range c cs with
    | (c', cs', some _) => allocateAllFrom fuel c' cs'
    | (_, _, none) => (c, cs)

/-- All new ranges a fresh `Download` hands out. -/
def allocateAll (d : Download) : List Cursor :=
  (allocateAllFrom 59 d.coordinator d.range).2

/-- The worker-count mode switch in `run_download` (workers.rs line 68):
multi-threaded iff `total_size > RANGE[2].end << 23` (= 32 MiB). -/
def multi_threaded (total_size : Nat) : Bool := decide (rangeStop 2 <<< 23 < total_size)

/-- C1: evaluation of the embedded coordinator at the failing input
`total_size = 58720257 = 7 · 2²³ + 1` (a multi-threaded download).  The ranges
handed out by the partition table cover only `[0, 58720256)`: their sizes sum
to `58720256 ≠ total_size`, and byte `58720256` is never assigned.  (Stealing
cannot close the gap: `steal_range` only splits existing cursors.) -/
theorem coverage_gap_at_58720257 :
    multi_threaded 58720257 = true ∧
    allocateAll (Download.new 58720257 4) =
      [⟨0, 8388608⟩, ⟨8388608, 16777216⟩, ⟨16777216, 33554432⟩, ⟨33554432, 58720256⟩] ∧
    ((allocateAll (Download.new 58720257 4)).map fun c => c.stop - c.start).sum
      = 58720256 ∧
    58720256 ≠ 58720257 := by decide

theorem getD_append_lt {α : Type} (l m : List α) (i : Nat) (d : α) (h : i < l.length) :
    (l ++ m).getD i d = l.getD i d := by
  induction l generalizing i with
  | nil => simp at h
  | cons x xs ih =>
    cases i with
    | zero => simp
    | succ n =>
      simp only [List.cons_append, List.getD_cons_succ]
      exact ih n (by simpa using h)

theorem getD_append_self {α : Type} (l : List α) (x : α) (d : α) :
    (l ++ [x]).getD l.length d = x := by
  induction l with
  | nil => simp
  | cons y ys ih => simpa using ih

theorem getD_set_self {α : Type} (l : List α) (i : Nat) (x d : α) (h : i < l.length) :
    (l.set i x).getD i d = x := by
  induction l generalizing i with
  | nil => simp at h
  | cons y ys ih =>
    cases i with
    | zero => simp
    | succ n =>
      simp only [List.set_cons_succ, List.getD_cons_succ]
      exact ih n (by simpa using h)

theorem getD_set_ne {α : Type} (l : List α) (i j : Nat) (x d : α) (h : i ≠ j) :
    (l.set i x).getD j d = l.getD j d := by
  induction l generalizing i j with
  | nil => simp
  | cons y ys ih =>
    cases i with
    | zero =>
      cases j with
      | zero => exact absurd rfl h
      | succ m => simp
    | succ n =>
      cases j with
      | zero => simp
      | succ m =>
        simp only [List.set_cons_succ, List.getD_cons_succ]
        exact ih n m (by omega)

theorem rne_le (n d : Nat) : rne n d ≤ n / d + 1 := by
  unfold rne; split <;> omega

theorem rne_ge (n d : Nat) : n / d ≤ rne n d := by
  unfold rne; split <;> omega

theorem log2fuel_le (fuel : Nat) : ∀ n, 1 ≤ n → 2 ^ log2fuel fuel n ≤ n := by
  induction fuel with
  | zero => intro n h; simpa [log2fuel] using h
  | succ m ih =>
    intro n h
    by_cases h2 : n < 2
    · simp [log2fuel, h2]; omega
    · have hrec := ih (n / 2) (by omega)
      have hdm := Nat.div_add_mod n 2
      simp only [log2fuel, if_neg h2, pow_succ]
      omega

theorem le_log2fuel : ∀ fuel k n, k ≤ fuel → 2 ^ k ≤ n → k ≤ log2fuel fuel n := by
  intro fuel
  induction fuel with
  | zero => intro k n hk _; omega
  | succ m ih =>
    intro k n hk hn
    cases k with
    | zero => omega
    | succ j =>
      have h2 : ¬ n < 2 := by
        have : (2 : Nat) ≤ 2 ^ (j + 1) := by
          calc (2 : Nat) = 2 ^ 1 := by omega
            _ ≤ 2 ^ (j + 1) := Nat.pow_le_pow_right (by omega) (by omega)
        omega
      have hj : 2 ^ j ≤ n / 2 := by
        rw [Nat.le_div_iff_mul_le (by omega)]
        have : (2 : Nat) ^ j * 2 = 2 ^ (j + 1) := by rw [pow_succ]
        omega
      have := ih j (n / 2) (by omega) hj
      simp only [log2fuel, if_neg h2]
      omega

/-- Rounding to 24 bits changes a value by less than one part in `2²³`
(upper side): the kept 24-bit window starts at `2²³ = 8388608` and rounding
adds at most one ulp. -/
theorem f32Signif_le (p : Nat) : f32Signif p * 8388608 ≤ p * 8388609 := by
  by_cases h : p < 2 ^ 24
  · simp only [f32Signif, if_pos h]; omega
  · simp only [f32Signif, if_neg h]
    have hL24 : 24 ≤ log2fuel 128 p := le_log2fuel 128 24 p (by omega) (by omega)
    have hLle : 2 ^ log2fuel 128 p ≤ p := log2fuel_le 128 p (by omega)
    have hk : log2fuel 128 p - 23 + 23 = log2fuel 128 p := by omega
    have h2k : 2 ^ (log2fuel 128 p - 23) * 8388608 ≤ p := by
      have : (2 : Nat) ^ (log2fuel 128 p - 23) * 2 ^ 23 = 2 ^ (log2fuel 128 p) := by
        rw [← pow_add, hk]
      have h23 : (2 : Nat) ^ 23 = 8388608 := by norm_num
      omega
    have hrle := rne_le p (2 ^ (log2fuel 128 p - 23))
    have key : rne p (2 ^ (log2fuel 128 p - 23)) * 2 ^ (log2fuel 128 p - 23)
        ≤ p + 2 ^ (log2fuel 128 p - 23) := by
      calc rne p (2 ^ (log2fuel 128 p - 23)) * 2 ^ (log2fuel 128 p - 23)
          ≤ (p / 2 ^ (log2fuel 128 p - 23) + 1) * 2 ^ (log2fuel 128 p - 23) :=
            Nat.mul_le_mul_right _ hrle
        _ = p / 2 ^ (log2fuel 128 p - 23) * 2 ^ (log2fuel 128 p - 23)
            + 2 ^ (log2fuel 128 p - 23) := by ring
        _ ≤ p + 2 ^ (log2fuel 128 p - 23) :=
            Nat.add_le_add_right (Nat.div_mul_le_self _ _) _
    have key2 := Nat.mul_le_mul_right 8388608 key
    omega

/-- Rounding to 24 bits changes a value by less than one part in `2²³`
(lower side). -/
theorem f32Signif_ge (p : Nat) : p * 8388607 ≤ f32Signif p * 8388608 := by
  by_cases h : p < 2 ^ 24
  · simp only [f32Signif, if_pos h]; omega
  · simp only [f32Signif, if_neg h]
    have hL24 : 24 ≤ log2fuel 128 p := le_log2fuel 128 24 p (by omega) (by omega)
    have hLle : 2 ^ log2fuel 128 p ≤ p := log2fuel_le 128 p (by omega)
    have hk : log2fuel 128 p - 23 + 23 = log2fuel 128 p := by omega
    have h2k : 2 ^ (log2fuel 128 p - 23) * 8388608 ≤ p := by
      have : (2 : Nat) ^ (log2fuel 128 p - 23) * 2 ^ 23 = 2 ^ (log2fuel 128 p) := by
        rw [← pow_add, hk]
      have h23 : (2 : Nat) ^ 23 = 8388608 := by norm_num
      omega
    have hrge := rne_ge p (2 ^ (log2fuel 128 p - 23))
    have hdm := Nat.div_add_mod p (2 ^ (log2fuel 128 p - 23))
    have hml : p % 2 ^ (log2fuel 128 p - 23) < 2 ^ (log2fuel 128 p - 23) :=
      Nat.mod_lt _ (Nat.pos_pow_of_pos _ (by omega))
    have key : p ≤ rne p (2 ^ (log2fuel 128 p - 23)) * 2 ^ (log2fuel 128 p - 23)
        + 2 ^ (log2fuel 128 p - 23) := by
      have h1 : p / 2 ^ (log2fuel 128 p - 23) * 2 ^ (log2fuel 128 p - 23)
          ≤ rne p (2 ^ (log2fuel 128 p - 23)) * 2 ^ (log2fuel 128 p - 23) :=
        Nat.mul_le_mul_right _ hrge
      have h2 : 2 ^ (log2fuel 128 p - 23) * (p / 2 ^ (log2fuel 128 p - 23))
          = p / 2 ^ (log2fuel 128 p - 23) * 2 ^ (log2fuel 128 p - 23) := by ring
      omega
    have key2 := Nat.mul_le_mul_right 8388608 key
    have expand : (rne p (2 ^ (log2fuel 128 p - 23)) * 2 ^ (log2fuel 128 p - 23)
        + 2 ^ (log2fuel 128 p - 23)) * 8388608
        = rne p (2 ^ (log2fuel 128 p - 23)) * 2 ^ (log2fuel 128 p - 23) * 8388608
          + 2 ^ (log2fuel 128 p - 23) * 8388608 := by ring
    omega

/-- For every remainder eligible for stealing (above the 1-MiB threshold), the
f32-computed steal amount lies between 38.1% and 38.3% of the remainder, is
positive, and is strictly below the remainder. -/
theorem steal_amount_bounds (r : Nat) (h : MIN_STEAL_BYTES < r) :
    381 * r ≤ 1000 * steal_amount_of r ∧
    1000 * steal_amount_of r ≤ 383 * r ∧
    0 < steal_amount_of r ∧
    steal_amount_of r < r := by
  have hM : MIN_STEAL_BYTES = 1048576 := rfl
  have hF : F382 = 12817793 := by decide
  simp only [steal_amount_of, hF]
  have hu1 := f32Signif_le r
  have hl1 := f32Signif_ge r
  have hu2 := f32Signif_le (f32Signif r * 12817793)
  have hl2 := f32Signif_ge (f32Signif r * 12817793)
  refine ⟨?_, ?_, ?_, ?_⟩ <;> omega

theorem steal_amount_pos (remaining : Nat) (h : MIN_STEAL_BYTES < remaining) :
    0 < steal_amount_of remaining :=
  (steal_amount_bounds remaining h).2.2.1

theorem steal_amount_lt (remaining : Nat) (h : MIN_STEAL_BYTES < remaining) :
    steal_amount_of remaining < remaining :=
  (steal_amount_bounds remaining h).2.2.2

/-- Inversion of a successful candidate scan: the victim is at an index `≥ 2`
within the vector, its remainder exceeds the threshold, and the returned pair
is its shrunken end and its current end. -/
theorem stealCandidate_some {cs : List Cursor} {msb sp t ne ce : Nat}
    (h : stealCandidate cs msb sp = some (t, ne, ce)) :
    2 ≤ t ∧ t < cs.length ∧
      msb < (cs.getD t ⟨0, 0⟩).stop - (cs.getD t ⟨0, 0⟩).start ∧
      ce = (cs.getD t ⟨0, 0⟩).stop ∧
      ne = ce - steal_amount_of ((cs.getD t ⟨0, 0⟩).stop - (cs.getD t ⟨0, 0⟩).start) := by
  obtain ⟨attempt, hmem, hf⟩ := List.exists_of_findSome?_eq_some h
  have hlen : 0 < cs.length := by
    have := List.mem_range.mp hmem
    omega
  by_cases h2 : (sp + attempt) % cs.length < 2
  · rw [if_pos h2] at hf
    exact absurd hf (by simp)
  · rw [if_neg h2] at hf
    by_cases hsm : (cs.getD ((sp + attempt) % cs.length) ⟨0, 0⟩).stop
        - (cs.getD ((sp + attempt) % cs.length) ⟨0, 0⟩).start ≤ msb
    · rw [if_pos hsm] at hf
      exact absurd hf (by simp)
    · rw [if_neg hsm] at hf
      have ht : (sp + attempt) % cs.length = t := congrArg Prod.fst (Option.some.inj hf)
      have hrest := congrArg Prod.snd (Option.some.inj hf)
      have hne : (cs.getD ((sp + attempt) % cs.length) ⟨0, 0⟩).stop
          - steal_amount_of ((cs.getD ((sp + attempt) % cs.length) ⟨0, 0⟩).stop
              - (cs.getD ((sp + attempt) % cs.length) ⟨0, 0⟩).start) = ne :=
        congrArg Prod.fst hrest
      have hce : (cs.getD ((sp + attempt) % cs.length) ⟨0, 0⟩).stop = ce :=
        congrArg Prod.snd hrest
      rw [ht] at hne hce hsm
      exact ⟨by omega, ht ▸ Nat.mod_lt _ (by omega), by omega, hce.symm, by omega⟩

/-- If every cursor at an index `≥ 2` has remainder `≤ min_steal_bytes`, the
candidate scan fails. -/
theorem stealCandidate_none_of_small {cs : List Cursor} {msb sp : Nat}
    (hsmall : ∀ u, 2 ≤ u → u < cs.length →
      (cs.getD u ⟨0, 0⟩).stop - (cs.getD u ⟨0, 0⟩).start ≤ msb) :
    stealCandidate cs msb sp = none := by
  rw [stealCandidate, List.findSome?_eq_none_iff]
  intro a ha
  have halen : a < cs.length := List.mem_range.mp ha
  by_cases h2 : (sp + a) % cs.length < 2
  · rw [if_pos h2]
  · have hu := hsmall ((sp + a) % cs.length) (by omega) (Nat.mod_lt _ (by omega))
    rw [if_neg h2, if_pos hu]

/-- C5 (amended): behaviour of `steal_range` with the 1-MiB threshold.
(1) cursors at live indices 0 and 1 are never modified;
(2) on success there is a victim index `t ≥ 2` whose remainder exceeds 1 MiB,
    the victim's end is reduced by the f32-computed steal amount
    `((remaining as f32) * 0.382).ceil()`, the returned cursor is exactly
    `{start := cur_end − steal_amount, end := cur_end}` (appended to the live
    vector), and `steal_ptr` becomes `(t + 1) % live.length`;
(3) if no candidate is eligible (a full fruitless cycle), `none` is returned
    and `steal_exhausted` is set;
(4) for every remainder eligible for stealing, the f32 steal amount lies in
    the 38.1%–38.3% band around the claimed `⌈remaining · 0.382⌉`, is
    positive and strictly below the remainder (it equals the exact ceiling
    only up to f32 rounding — see `steal_amount_not_exact_ceil`). -/
theorem steal_range_spec (c : Coordinator) (cs : List Cursor) :
    (∀ i, i < 2 →
      ((steal_range c cs MIN_STEAL_BYTES).2.1).getD i ⟨0, 0⟩ = cs.getD i ⟨0, 0⟩) ∧
    (∀ ne ce, (steal_range c cs MIN_STEAL_BYTES).2.2 = some (ne, ce) →
      ∃ t, 2 ≤ t ∧ t < cs.length ∧
        MIN_STEAL_BYTES < (cs.getD t ⟨0, 0⟩).stop - (cs.getD t ⟨0, 0⟩).start ∧
        ce = (cs.getD t ⟨0, 0⟩).stop ∧
        ne = ce - steal_amount_of ((cs.getD t ⟨0, 0⟩).stop - (cs.getD t ⟨0, 0⟩).start) ∧
        (steal_range c cs MIN_STEAL_BYTES).2.1
          = (cs.set t { cs.getD t ⟨0, 0⟩ with stop := ne }) ++ [⟨ne, ce⟩] ∧
        ((steal_range c cs MIN_STEAL_BYTES).1).steal_ptr = (t + 1) % cs.length) ∧
    (c.steal_exhausted = false → 3 ≤ cs.length →
      (∀ u, 2 ≤ u → u < cs.length →
        (cs.getD u ⟨0, 0⟩).stop - (cs.getD u ⟨0, 0⟩).start ≤ MIN_STEAL_BYTES) →
      (steal_range c cs MIN_STEAL_BYTES).2.2 = none ∧
      ((steal_range c cs MIN_STEAL_BYTES).1).steal_exhausted = true) ∧
    (∀ r, MIN_STEAL_BYTES < r →
      381 * r ≤ 1000 * steal_amount_of r ∧ 1000 * steal_amount_of r ≤ 383 * r ∧
      0 < steal_amount_of r ∧ steal_amount_of r < r) := by
  by_cases hg : c.steal_exhausted = true ∨ cs.length < 3
  · have hres : steal_range c cs MIN_STEAL_BYTES = (c, cs, none) := by
      rw [steal_range, if_pos hg]
    rw [hres]
    refine ⟨fun i _ => rfl, fun ne ce h => absurd h (by simp), fun hex hlen _ => ?_,
      fun r hr => steal_amount_bounds r hr⟩
    rcases hg with hg | hg
    · rw [hex] at hg
      exact absurd hg (by simp)
    · omega
  · cases hcand : stealCandidate cs MIN_STEAL_BYTES c.steal_ptr with
    | none =>
      have hres : steal_range c cs MIN_STEAL_BYTES
          = ({ c with steal_exhausted := true }, cs, none) := by
        rw [steal_range, if_neg hg, hcand]
      rw [hres]
      exact ⟨fun i _ => rfl, fun ne ce h => absurd h (by simp), fun _ _ _ => ⟨rfl, rfl⟩,
        fun r hr => steal_amount_bounds r hr⟩
    | some tpl =>
      obtain ⟨t, ne0, ce0⟩ := tpl
      obtain ⟨h2t, htlen, hrem, hce, hne⟩ := stealCandidate_some hcand
      have hres : steal_range c cs MIN_STEAL_BYTES
          = ({ c with steal_ptr := (t + 1) % cs.length },
             (cs.set t { cs.getD t ⟨0, 0⟩ with stop := ne0 }) ++ [⟨ne0, ce0⟩],
             some (ne0, ce0)) := by
        rw [steal_range, if_neg hg, hcand]
      rw [hres]
      refine ⟨?_, ?_, ?_, fun r hr => steal_amount_bounds r hr⟩
      · intro i hi
        rw [getD_append_lt _ _ _ _ (by rw [List.length_set]; omega),
          getD_set_ne _ _ _ _ _ (by omega)]
      · intro ne ce h
        have hp := Option.some.inj h
        have hne' : ne0 = ne := congrArg Prod.fst hp
        have hce' : ce0 = ce := congrArg Prod.snd hp
        subst hne' hce'
        exact ⟨t, h2t, htlen, hrem, hce, hne, rfl, rfl⟩
      · intro _ _ hsmall
        have hnone := @stealCandidate_none_of_small cs MIN_STEAL_BYTES c.steal_ptr hsmall
        rw [hcand] at hnone
        exact absurd hnone (by simp)

/-- C5 counterexample: the steal amount the code computes is the `f32`
rounding of `remaining · 0.382`, not the exact ceiling the claim states.  At
`remaining = 26308941` the code computes `10050015` while
`⌈remaining · 0.382⌉ = ⌈(remaining · 382) / 1000⌉ = 10050016`; stealing from a
live vector whose eligible victim has that remainder therefore returns a
cursor differing from the one the claim mandates. -/
theorem steal_amount_not_exact_ceil :
    steal_amount_of 26308941 = 10050015 ∧
    (26308941 * 382 + 999) / 1000 = 10050016 ∧
    (steal_range ⟨3, 3, 2, false, 0⟩ [⟨0, 50⟩, ⟨50, 100⟩, ⟨100, 26309041⟩]
        MIN_STEAL_BYTES).2.2 = some (26309041 - 10050015, 26309041) ∧
    (26309041 - 10050015 : Nat) ≠ 26309041 - 10050016 := by decide

/-- A concrete live vector with an eligible victim at index 2 (remaining
`16777216` bytes — even the `f32` steal amount is `6408897` here, agreeing
with the exact ceiling), for exercising `steal_range_spec`'s success clause. -/
def stealDemoCursors : List Cursor :=
  [⟨0, 8388608⟩, ⟨8388608, 16777216⟩, ⟨16777216, 33554432⟩]

/-- The coordinator state driving `stealDemoCursors`: all new ranges handed
out, `steal_ptr` at its initial position 2. -/
def stealDemoCoord : Coordinator := ⟨3, 3, 2, false, 58720256⟩

/-- Witness for C5: the success clause applied at `stealDemoCursors` (the
steal succeeds, returning the tail `[27145535, 33554432)` of victim 2), and
the 38.1%–38.3% band at the victim's remainder. -/
theorem steal_range_spec_witness :
    (∃ t, 2 ≤ t ∧ t < stealDemoCursors.length ∧
      MIN_STEAL_BYTES < (stealDemoCursors.getD t ⟨0, 0⟩).stop
          - (stealDemoCursors.getD t ⟨0, 0⟩).start ∧
      (33554432 : Nat) = (stealDemoCursors.getD t ⟨0, 0⟩).stop ∧
      (27145535 : Nat) = 33554432
          - steal_amount_of ((stealDemoCursors.getD t ⟨0, 0⟩).stop
              - (stealDemoCursors.getD t ⟨0, 0⟩).start) ∧
      (steal_range stealDemoCoord stealDemoCursors MIN_STEAL_BYTES).2.1
        = (stealDemoCursors.set t
            { stealDemoCursors.getD t ⟨0, 0⟩ with stop := 27145535 })
          ++ [⟨27145535, 33554432⟩] ∧
      ((steal_range stealDemoCoord stealDemoCursors MIN_STEAL_BYTES).1).steal_ptr
        = (t + 1) % stealDemoCursors.length) ∧
    381 * 16777216 ≤ 1000 * steal_amount_of 16777216 ∧
    1000 * steal_amount_of 16777216 ≤ 383 * 16777216 :=
  ⟨(steal_range_spec stealDemoCoord stealDemoCursors).2.1 27145535 33554432 (by decide),
   ((steal_range_spec stealDemoCoord stealDemoCursors).2.2.2 16777216 (by decide)).1,
   ((steal_range_spec stealDemoCoord stealDemoCursors).2.2.2 16777216 (by decide)).2.1⟩

/-- A worker task as spawned by `run_multi_threaded`/`stream_range`
(workers.rs lines 214–239 and 271–407): it captures the byte range it was
handed (the `Range<usize>` argument of `stream_range`) and advances a local
`offset` from `range.start`; after each chunk it *stores* `offset` into its
cursor's atomic `start` (line 360).  A 206 response carries exactly
`range.end − range.start` bytes, so `offset` is capped by the captured
`rstop` — the code never re-reads the cursor's current (possibly
stolen-from) `end` while streaming. -/
structure Worker where
  rstart : Nat
  rstop : Nat
  offset : Nat
deriving DecidableEq

/-- Combined state of one download: the coordinator, the live cursor vector,
and the workers; worker `i` owns cursor `i` (hand-outs and steals append the
new cursor and hand it to the requesting worker). -/
structure SysState where
  coord : Coordinator
  cursors : List Cursor
  workers : List Worker
deriving DecidableEq

/-- Interleaved events of the download: a coordinator hand-out, a steal, or
worker `w` streaming (up to) `n` bytes of its captured range. -/
inductive Op where
  | handOut : Op
  | steal : Op
  | chunk : Nat → Nat → Op
deriving DecidableEq

/-- The worker-local offset after worker `w` receives a chunk of (at most)
`n` bytes: the response never exceeds the captured range. -/
def chunkOffset (s : SysState) (w n : Nat) : Nat :=
  (s.workers.getD w ⟨0, 0, 0⟩).offset +
    min n ((s.workers.getD w ⟨0, 0, 0⟩).rstop - (s.workers.getD w ⟨0, 0, 0⟩).offset)

def applyOp (s : SysState) : Op → SysState
  | Op.handOut =>
    match new_range s.coord s.cursors with
    | (c', cs', some r) => ⟨c', cs', s.workers ++ [⟨r.1, r.2, r.1⟩]⟩
    | (c', cs', none) => ⟨c', cs', s.workers⟩
  | Op.steal =>
    match steal_range s.coord s.cursors MIN_STEAL_BYTES with
    | (c', cs', some r) => ⟨c', cs', s.workers ++ [⟨r.1, r.2, r.1⟩]⟩
    | (c', cs', none) => ⟨c', cs', s.workers⟩
  | Op.chunk w n =>
    if w < s.workers.length then
      ⟨s.coord,
       s.cursors.set w { s.cursors.getD w ⟨0, 0⟩ with start := chunkOffset s w n },
       s.workers.set w { s.workers.getD w ⟨0, 0, 0⟩ with offset := chunkOffset s w n }⟩
    else s

def applyOps (s : SysState) (ops : List Op) : SysState := ops.foldl applyOp s

/-- The state at download start: `Download::new(size, …)` with no cursors yet. -/
def initState (size : Nat) : SysState :=
  ⟨(Download.new size 4).coordinator, [], []⟩

/-- A chunk step is safe when the worker's new offset does not pass its
cursor's *current* end — i.e. no steal shrank the end below bytes that are
still arriving.  (This is the side condition under which the spec's cursor
invariants survive; the code itself does not enforce it.) -/
def stepSafe (s : SysState) : Op → Bool
  | Op.chunk w n =>
    if w < s.workers.length then
      decide (chunkOffset s w n ≤ (s.cursors.getD w ⟨0, 0⟩).stop)
    else true
  | _ => true

def safeRun : SysState → List Op → Bool
  | _, [] => true
  | s, op :: ops => stepSafe s op && safeRun (applyOp s op) ops

/-- Disjointness of two half-open cursor ranges. -/
def Apart (c d : Cursor) : Prop := c.stop ≤ d.start ∨ d.stop ≤ c.start

instance (c d : Cursor) : Decidable (Apart c d) := by unfold Apart; infer_instance

theorem Apart.symm {c d : Cursor} (h : Apart c d) : Apart d c := h.elim Or.inr Or.inl

theorem Apart.mono {c' c d : Cursor} (h1 : c.start ≤ c'.start) (h2 : c'.stop ≤ c.stop)
    (h : Apart c d) : Apart c' d := by
  rcases h with h | h
  · exact Or.inl (Nat.le_trans h2 h)
  · exact Or.inr (Nat.le_trans h h1)

theorem rangeStartExt_mono : ∀ i, rangeStartExt i ≤ rangeStartExt (i + 1) := by
  intro i
  by_cases h1 : i + 1 < 59
  · rw [rangeStartExt, rangeStartExt, if_pos (by omega), if_pos h1]
    exact Nat.le_of_lt (rangeStart_mono (i + 1) h1 i (by omega))
  · by_cases h0 : i < 59
    · have hi : i = 58 := by omega
      subst hi
      decide
    · rw [rangeStartExt, rangeStartExt, if_neg h0, if_neg h1]

theorem rangeStop_eq_ext : ∀ i, i < 59 → rangeStop i = rangeStartExt (i + 1) := by
  intro i h
  by_cases h1 : i < 58
  · rw [rangeStartExt, if_pos (by omega)]
    exact range_contiguous i h1
  · have hi : i = 58 := by omega
    subst hi
    decide

theorem rangeStartExt_eq (i : Nat) (h : i < 59) : rangeStartExt i = rangeStart i := by
  rw [rangeStartExt, if_pos h]

/-- The reachable-state invariant: workers and cursors are in sync, the
coordinator's `max_index` is within the table and every index below it starts
strictly inside the file, every cursor satisfies `start ≤ end`, every cursor
ends at or before the hand-out frontier, each cursor's `start` equals its
owner's offset, and all cursor ranges are pairwise disjoint. -/
def SysInvP (c : Coordinator) (cs : List Cursor) (ws : List Worker) : Prop :=
  ws.length = cs.length ∧
  c.rangeByteEnd ≤ 59 ∧
  (∀ j, j < c.rangeByteEnd → rangeStart j * 2 ^ 23 + 2 ^ 23 ≤ c.total_size) ∧
  (∀ i, i < cs.length → (cs.getD i ⟨0, 0⟩).start ≤ (cs.getD i ⟨0, 0⟩).stop) ∧
  (∀ i, i < cs.length → (cs.getD i ⟨0, 0⟩).stop ≤ rangeStartExt c.rangeByteStart * 2 ^ 23) ∧
  (∀ i, i < cs.length → (cs.getD i ⟨0, 0⟩).start = (ws.getD i ⟨0, 0, 0⟩).offset) ∧
  (∀ i j, i < j → j < cs.length → Apart (cs.getD i ⟨0, 0⟩) (cs.getD j ⟨0, 0⟩))

def SysInv (s : SysState) : Prop := SysInvP s.coord s.cursors s.workers

theorem SysInv_init (size : Nat) : SysInv (initState size) := by
  refine ⟨rfl, ?_, ?_, ?_, ?_, ?_, ?_⟩
  · show (get_index (size >>> 23)).getD 0 ≤ 59
    cases h : get_index (size >>> 23) with
    | none => simp
    | some r =>
      have := (get_index_below_start _ _ h).1
      simpa using this
  · intro j hj
    show rangeStart j * 2 ^ 23 + 2 ^ 23 ≤ size
    have hj' : j < (get_index (size >>> 23)).getD 0 := hj
    cases h : get_index (size >>> 23) with
    | none => rw [h] at hj'; simp at hj'
    | some r =>
      rw [h] at hj'
      simp at hj'
      have hlt := (get_index_below_start _ _ h).2 j hj'
      have h1 : rangeStart j + 1 ≤ size >>> 23 := hlt
      have h2 : (rangeStart j + 1) * 2 ^ 23 ≤ (size >>> 23) * 2 ^ 23 :=
        Nat.mul_le_mul_right _ h1
      have h3 : (size >>> 23) * 2 ^ 23 ≤ size := by
        rw [Nat.shiftRight_eq_div_pow]
        exact Nat.div_mul_le_self size (2 ^ 23)
      omega
  · intro i hi; simp [initState] at hi
  · intro i hi; simp [initState] at hi
  · intro i hi; simp [initState] at hi
  · intro i j hij hj; simp [initState] at hj

theorem SysInvP_handOut (c : Coordinator) (cs : List Cursor) (ws : List Worker)
    (h : SysInvP c cs ws) (hc : c.rangeByteStart < c.rangeByteEnd) :
    SysInvP { c with rangeByteStart := c.rangeByteStart + 1 }
      (cs ++ [⟨rangeStart c.rangeByteStart <<< 23,
               min (rangeStop c.rangeByteStart <<< 23) c.total_size⟩])
      (ws ++ [⟨rangeStart c.rangeByteStart <<< 23,
               min (rangeStop c.rangeByteStart <<< 23) c.total_size,
               rangeStart c.rangeByteStart <<< 23⟩]) := by
  obtain ⟨hlen, hmax, hA4, hle, hA1, hA3, hap⟩ := h
  have hn59 : c.rangeByteStart < 59 := by omega
  have hsb : rangeStart c.rangeByteStart * 2 ^ 23 + 2 ^ 23 ≤ c.total_size :=
    hA4 c.rangeByteStart hc
  have hshift : ∀ a : Nat, a <<< 23 = a * 2 ^ 23 := fun a => Nat.shiftLeft_eq a 23
  have hss : rangeStart c.rangeByteStart * 2 ^ 23 + 2 ^ 23
      ≤ rangeStop c.rangeByteStart * 2 ^ 23 := by
    have := rangeStart_lt_rangeStop c.rangeByteStart hn59
    have : rangeStart c.rangeByteStart + 1 ≤ rangeStop c.rangeByteStart := this
    calc rangeStart c.rangeByteStart * 2 ^ 23 + 2 ^ 23
        = (rangeStart c.rangeByteStart + 1) * 2 ^ 23 := by ring
      _ ≤ rangeStop c.rangeByteStart * 2 ^ 23 := Nat.mul_le_mul_right _ this
  have hextmul : rangeStartExt c.rangeByteStart * 2 ^ 23
      ≤ rangeStartExt (c.rangeByteStart + 1) * 2 ^ 23 :=
    Nat.mul_le_mul_right _ (rangeStartExt_mono c.rangeByteStart)
  refine ⟨by simp [hlen], hmax, hA4, ?_, ?_, ?_, ?_⟩
  · intro i hi
    simp only [List.length_append, List.length_cons, List.length_nil] at hi
    rcases Nat.lt_or_ge i cs.length with hil | hil
    · rw [getD_append_lt _ _ _ _ hil]
      exact hle i hil
    · have hieq : i = cs.length := by omega
      subst hieq
      rw [getD_append_self]
      show rangeStart c.rangeByteStart <<< 23
          ≤ min (rangeStop c.rangeByteStart <<< 23) c.total_size
      rw [hshift, hshift]
      exact Nat.le_min.mpr ⟨by omega, by omega⟩
  · intro i hi
    simp only [List.length_append, List.length_cons, List.length_nil] at hi
    rcases Nat.lt_or_ge i cs.length with hil | hil
    · rw [getD_append_lt _ _ _ _ hil]
      exact Nat.le_trans (hA1 i hil) hextmul
    · have hieq : i = cs.length := by omega
      subst hieq
      rw [getD_append_self]
      show min (rangeStop c.rangeByteStart <<< 23) c.total_size
          ≤ rangeStartExt (c.rangeByteStart + 1) * 2 ^ 23
      rw [hshift, ← rangeStop_eq_ext c.rangeByteStart hn59]
      exact Nat.min_le_left _ _
  · intro i hi
    simp only [List.length_append, List.length_cons, List.length_nil] at hi
    rcases Nat.lt_or_ge i cs.length with hil | hil
    · rw [getD_append_lt _ _ _ _ hil, getD_append_lt _ _ _ _ (by omega)]
      exact hA3 i hil
    · have hieq : i = cs.length := by omega
      subst hieq
      rw [getD_append_self, ← hlen, getD_append_self]
  · intro i j hij hj
    simp only [List.length_append, List.length_cons, List.length_nil] at hj
    rcases Nat.lt_or_ge j cs.length with hjl | hjl
    · rw [getD_append_lt _ _ _ _ (by omega), getD_append_lt _ _ _ _ hjl]
      exact hap i j hij hjl
    · have hjeq : j = cs.length := by omega
      subst hjeq
      have hil : i < cs.length := by omega
      rw [getD_append_lt _ _ _ _ hil, getD_append_self]
      refine Or.inl ?_
      show (cs.getD i ⟨0, 0⟩).stop ≤ rangeStart c.rangeByteStart <<< 23
      rw [hshift]
      have := hA1 i hil
      rw [rangeStartExt_eq c.rangeByteStart hn59] at this
      exact this

theorem SysInvP_steal_some (c : Coordinator) (cs : List Cursor) (ws : List Worker)
    (h : SysInvP c cs ws) (t ne0 ce0 : Nat)
    (hcand : stealCandidate cs MIN_STEAL_BYTES c.steal_ptr = some (t, ne0, ce0)) :
    SysInvP { c with steal_ptr := (t + 1) % cs.length }
      ((cs.set t { cs.getD t ⟨0, 0⟩ with stop := ne0 }) ++ [⟨ne0, ce0⟩])
      (ws ++ [⟨ne0, ce0, ne0⟩]) := by
  obtain ⟨hlen, hmax, hA4, hle, hA1, hA3, hap⟩ := h
  obtain ⟨h2t, htlen, hrem, hce, hne⟩ := stealCandidate_some hcand
  have hvle : (cs.getD t ⟨0, 0⟩).start ≤ (cs.getD t ⟨0, 0⟩).stop := hle t htlen
  have hApos : 0 < steal_amount_of ((cs.getD t ⟨0, 0⟩).stop - (cs.getD t ⟨0, 0⟩).start) :=
    steal_amount_pos _ hrem
  have hAlt : steal_amount_of ((cs.getD t ⟨0, 0⟩).stop - (cs.getD t ⟨0, 0⟩).start)
      < (cs.getD t ⟨0, 0⟩).stop - (cs.getD t ⟨0, 0⟩).start :=
    steal_amount_lt _ hrem
  have hne0a : (cs.getD t ⟨0, 0⟩).start < ne0 := by omega
  have hne0b : ne0 ≤ ce0 := by omega
  have hsetlen : (cs.set t { cs.getD t ⟨0, 0⟩ with stop := ne0 }).length = cs.length :=
    List.length_set cs t _
  refine ⟨by simp [hlen], hmax, hA4, ?_, ?_, ?_, ?_⟩
  · intro i hi
    simp only [List.length_append, hsetlen, List.length_cons, List.length_nil] at hi
    rcases Nat.lt_or_ge i cs.length with hil | hil
    · rw [getD_append_lt _ _ _ _ (by omega)]
      by_cases hit : i = t
      · subst hit
        rw [getD_set_self _ _ _ _ htlen]
        show (cs.getD i ⟨0, 0⟩).start ≤ ne0
        omega
      · rw [getD_set_ne _ _ _ _ _ (fun hh => hit hh.symm)]
        exact hle i hil
    · have hieq : i = cs.length := by omega
      subst hieq
      rw [show cs.length = (cs.set t { cs.getD t ⟨0, 0⟩ with stop := ne0 }).length
          from hsetlen.symm, getD_append_self]
      exact hne0b
  · intro i hi
    simp only [List.length_append, hsetlen, List.length_cons, List.length_nil] at hi
    have hbt : (cs.getD t ⟨0, 0⟩).stop ≤ rangeStartExt c.rangeByteStart * 2 ^ 23 :=
      hA1 t htlen
    rcases Nat.lt_or_ge i cs.length with hil | hil
    · rw [getD_append_lt _ _ _ _ (by omega)]
      by_cases hit : i = t
      · subst hit
        rw [getD_set_self _ _ _ _ htlen]
        show ne0 ≤ rangeStartExt c.rangeByteStart * 2 ^ 23
        omega
      · rw [getD_set_ne _ _ _ _ _ (fun hh => hit hh.symm)]
        exact hA1 i hil
    · have hieq : i = cs.length := by omega
      subst hieq
      rw [show cs.length = (cs.set t { cs.getD t ⟨0, 0⟩ with stop := ne0 }).length
          from hsetlen.symm, getD_append_self]
      show ce0 ≤ rangeStartExt c.rangeByteStart * 2 ^ 23
      omega
  · intro i hi
    simp only [List.length_append, hsetlen, List.length_cons, List.length_nil] at hi
    rcases Nat.lt_or_ge i cs.length with hil | hil
    · rw [getD_append_lt _ _ _ _ (by omega), getD_append_lt _ _ _ _ (by omega)]
      by_cases hit : i = t
      · subst hit
        rw [getD_set_self _ _ _ _ htlen]
        show (cs.getD i ⟨0, 0⟩).start = (ws.getD i ⟨0, 0, 0⟩).offset
        exact hA3 i hil
      · rw [getD_set_ne _ _ _ _ _ (fun hh => hit hh.symm)]
        exact hA3 i hil
    · have hieq : i = cs.length := by omega
      subst hieq
      rw [show cs.length = (cs.set t { cs.getD t ⟨0, 0⟩ with stop := ne0 }).length
          from hsetlen.symm, getD_append_self, hsetlen, ← hlen, getD_append_self]
  · intro i j hij hj
    simp only [List.length_append, hsetlen, List.length_cons, List.length_nil] at hj
    have hsub : ∀ k, k < cs.length → k ≠ t →
        Apart (cs.getD k ⟨0, 0⟩) (cs.getD t ⟨0, 0⟩) := by
      intro k hk hkt
      rcases Nat.lt_or_ge k t with hlt | hge
      · exact hap k t hlt htlen
      · exact (hap t k (by omega) hk).symm
    rcases Nat.lt_or_ge j cs.length with hjl | hjl
    · rw [getD_append_lt _ _ _ _ (by omega), getD_append_lt _ _ _ _ (by omega)]
      by_cases hit : i = t
      · subst hit
        rw [getD_set_self _ _ _ _ htlen,
          getD_set_ne _ _ _ _ _ (fun hh => (by omega : i ≠ j) hh)]
        exact @Apart.mono _ (cs.getD i ⟨0, 0⟩) _ (Nat.le_refl _)
          (by show ne0 ≤ (cs.getD i ⟨0, 0⟩).stop; omega) (hap i j hij hjl)
      · by_cases hjt : j = t
        · subst hjt
          rw [getD_set_self _ _ _ _ htlen, getD_set_ne _ _ _ _ _ (fun hh => hit hh.symm)]
          exact (@Apart.mono { cs.getD j ⟨0, 0⟩ with stop := ne0 } (cs.getD j ⟨0, 0⟩) _
            (Nat.le_refl _)
            (by show ne0 ≤ (cs.getD j ⟨0, 0⟩).stop; omega)
            ((hap i j hij hjl).symm)).symm
        · rw [getD_set_ne _ _ _ _ _ (fun hh => hit hh.symm),
            getD_set_ne _ _ _ _ _ (fun hh => hjt hh.symm)]
          exact hap i j hij hjl
    · have hjeq : j = cs.length := by omega
      subst hjeq
      have hil : i < cs.length := by omega
      rw [getD_append_lt _ _ _ _ (by omega),
        show cs.length = (cs.set t { cs.getD t ⟨0, 0⟩ with stop := ne0 }).length
          from hsetlen.symm, getD_append_self]
      by_cases hit : i = t
      · subst hit
        rw [getD_set_self _ _ _ _ htlen]
        exact Or.inl (Nat.le_refl ne0)
      · rw [getD_set_ne _ _ _ _ _ (fun hh => hit hh.symm)]
        have hbase : Apart (cs.getD t ⟨0, 0⟩) (cs.getD i ⟨0, 0⟩) := (hsub i hil hit).symm
        exact (@Apart.mono _ (cs.getD t ⟨0, 0⟩) _
          (by show (cs.getD t ⟨0, 0⟩).start ≤ ne0; omega)
          (by show ce0 ≤ (cs.getD t ⟨0, 0⟩).stop; omega) hbase).symm

theorem SysInvP_chunk (c : Coordinator) (cs : List Cursor) (ws : List Worker)
    (h : SysInvP c cs ws) (w off : Nat) (hw : w < cs.length)
    (hge : (ws.getD w ⟨0, 0, 0⟩).offset ≤ off)
    (hsafe : off ≤ (cs.getD w ⟨0, 0⟩).stop) :
    SysInvP c (cs.set w { cs.getD w ⟨0, 0⟩ with start := off })
      (ws.set w { ws.getD w ⟨0, 0, 0⟩ with offset := off }) := by
  obtain ⟨hlen, hmax, hA4, hle, hA1, hA3, hap⟩ := h
  have hstart : (cs.getD w ⟨0, 0⟩).start ≤ off := by
    rw [hA3 w hw]; exact hge
  refine ⟨by simp [hlen], hmax, hA4, ?_, ?_, ?_, ?_⟩
  · intro i hi
    rw [List.length_set] at hi
    by_cases hiw : i = w
    · subst hiw
      rw [getD_set_self _ _ _ _ hw]
      exact hsafe
    · rw [getD_set_ne _ _ _ _ _ (fun hh => hiw hh.symm)]
      exact hle i hi
  · intro i hi
    rw [List.length_set] at hi
    by_cases hiw : i = w
    · subst hiw
      rw [getD_set_self _ _ _ _ hw]
      exact hA1 i hi
    · rw [getD_set_ne _ _ _ _ _ (fun hh => hiw hh.symm)]
      exact hA1 i hi
  · intro i hi
    rw [List.length_set] at hi
    by_cases hiw : i = w
    · subst hiw
      rw [getD_set_self _ _ _ _ hw, getD_set_self _ _ _ _ (by omega)]
    · rw [getD_set_ne _ _ _ _ _ (fun hh => hiw hh.symm),
        getD_set_ne _ _ _ _ _ (fun hh => hiw hh.symm)]
      exact hA3 i hi
  · intro i j hij hj
    rw [List.length_set] at hj
    by_cases hiw : i = w
    · subst hiw
      rw [getD_set_self _ _ _ _ hw, getD_set_ne _ _ _ _ _ (fun hh => (by omega : i ≠ j) hh)]
      exact @Apart.mono _ (cs.getD i ⟨0, 0⟩) _ hstart (Nat.le_refl _) (hap i j hij hj)
    · by_cases hjw : j = w
      · subst hjw
        rw [getD_set_self _ _ _ _ hw, getD_set_ne _ _ _ _ _ (fun hh => hiw hh.symm)]
        exact (@Apart.mono { cs.getD j ⟨0, 0⟩ with start := off } (cs.getD j ⟨0, 0⟩) _
          hstart (Nat.le_refl _) ((hap i j hij hj).symm)).symm
      · rw [getD_set_ne _ _ _ _ _ (fun hh => hiw hh.symm),
          getD_set_ne _ _ _ _ _ (fun hh => hjw hh.symm)]
        exact hap i j hij hj

theorem SysInv_step (s : SysState) (op : Op) (hI : SysInv s) (hs : stepSafe s op = true) :
    SysInv (applyOp s op) := by
  obtain ⟨hlen, hmax, hA4, hle, hA1, hA3, hap⟩ := hI
  cases op with
  | handOut =>
    by_cases hc : s.coord.rangeByteStart < s.coord.rangeByteEnd
    · have happ : applyOp s Op.handOut =
        ⟨{ s.coord with rangeByteStart := s.coord.rangeByteStart + 1 },
         s.cursors ++ [⟨rangeStart s.coord.rangeByteStart <<< 23,
                        min (rangeStop s.coord.rangeByteStart <<< 23) s.coord.total_size⟩],
         s.workers ++ [⟨rangeStart s.coord.rangeByteStart <<< 23,
                        min (rangeStop s.coord.rangeByteStart <<< 23) s.coord.total_size,
                        rangeStart s.coord.rangeByteStart <<< 23⟩]⟩ := by
        simp only [applyOp]
        rw [new_range, if_pos hc]
      rw [happ]
      exact SysInvP_handOut s.coord s.cursors s.workers
        ⟨hlen, hmax, hA4, hle, hA1, hA3, hap⟩ hc
    · have happ : applyOp s Op.handOut = ⟨s.coord, s.cursors, s.workers⟩ := by
        simp only [applyOp]
        rw [new_range, if_neg hc]
      rw [happ]
      exact ⟨hlen, hmax, hA4, hle, hA1, hA3, hap⟩
  | steal =>
    by_cases hg : s.coord.steal_exhausted = true ∨ s.cursors.length < 3
    · have happ : applyOp s Op.steal = ⟨s.coord, s.cursors, s.workers⟩ := by
        simp only [applyOp]
        rw [steal_range, if_pos hg]
      rw [happ]
      exact ⟨hlen, hmax, hA4, hle, hA1, hA3, hap⟩
    · cases hcand : stealCandidate s.cursors MIN_STEAL_BYTES s.coord.steal_ptr with
      | none =>
        have happ : applyOp s Op.steal
            = ⟨{ s.coord with steal_exhausted := true }, s.cursors, s.workers⟩ := by
          simp only [applyOp]
          rw [steal_range, if_neg hg, hcand]
        rw [happ]
        exact ⟨hlen, hmax, hA4, hle, hA1, hA3, hap⟩
      | some tpl =>
        obtain ⟨t, ne0, ce0⟩ := tpl
        have happ : applyOp s Op.steal
            = ⟨{ s.coord with steal_ptr := (t + 1) % s.cursors.length },
               (s.cursors.set t { s.cursors.getD t ⟨0, 0⟩ with stop := ne0 }) ++ [⟨ne0, ce0⟩],
               s.workers ++ [⟨ne0, ce0, ne0⟩]⟩ := by
          simp only [applyOp]
          rw [steal_range, if_neg hg, hcand]
        rw [happ]
        exact SysInvP_steal_some s.coord s.cursors s.workers
          ⟨hlen, hmax, hA4, hle, hA1, hA3, hap⟩ t ne0 ce0 hcand
  | chunk w n =>
    by_cases hw : w < s.workers.length
    · have hsv : chunkOffset s w n ≤ (s.cursors.getD w ⟨0, 0⟩).stop := by
        have hs' := hs
        simp only [stepSafe] at hs'
        rw [if_pos hw] at hs'
        exact of_decide_eq_true hs'
      have happ : applyOp s (Op.chunk w n) =
          ⟨s.coord,
           s.cursors.set w { s.cursors.getD w ⟨0, 0⟩ with start := chunkOffset s w n },
           s.workers.set w { s.workers.getD w ⟨0, 0, 0⟩ with offset := chunkOffset s w n }⟩ := by
        simp only [applyOp]
        rw [if_pos hw]
      rw [happ]
      exact SysInvP_chunk s.coord s.cursors s.workers
        ⟨hlen, hmax, hA4, hle, hA1, hA3, hap⟩ w (chunkOffset s w n)
        (by omega) (Nat.le_add_right _ _) hsv
    · have happ : applyOp s (Op.chunk w n) = s := by
        simp only [applyOp]
        rw [if_neg hw]
      rw [happ]
      exact ⟨hlen, hmax, hA4, hle, hA1, hA3, hap⟩

theorem SysInv_run : ∀ (ops : List Op) (s : SysState),
    SysInv s → safeRun s ops = true → SysInv (applyOps s ops)
  | [], _, hI, _ => hI
  | op :: ops, s, hI, hsafe => by
    have h2 := (Bool.and_eq_true _ _).mp hsafe
    exact SysInv_run ops (applyOp s op) (SysInv_step s op hI h2.1) h2.2

/-- C2 counterexample: a reachable interleaving violating `start ≤ end`.
For a 56-MiB download (`total_size = 58720256 = 7 · 2²³`), four ranges are
handed out; a steal then shrinks cursor 2's end from `33554432` to `27145535`
and hands the tail to a new worker, while the worker that owns cursor 2 is
still streaming its originally requested range `[16777216, 33554432)`.  The
code writes the whole response and stores `start := 33554432`, so cursor 2
ends with `start = 33554432 > end = 27145535` (and its owner has written the
same bytes the thief is downloading).  The worker never re-reads the shrunken
`end` (it checks only the captured `range.end`, workers.rs line 396). -/
theorem streaming_overtakes_stolen_end :
    ((applyOps (initState 58720256)
        [Op.handOut, Op.handOut, Op.handOut, Op.handOut, Op.steal,
         Op.chunk 2 16777216]).cursors.getD 2 ⟨0, 0⟩).stop
      < ((applyOps (initState 58720256)
        [Op.handOut, Op.handOut, Op.handOut, Op.handOut, Op.steal,
         Op.chunk 2 16777216]).cursors.getD 2 ⟨0, 0⟩).start := by decide

/-- C2 (amended): the cursor invariants hold at hand-out time and are
preserved by `new_range`, by `steal_range`, and by every streaming step whose
bytes stay within the cursor's *current* `[start, end)` — i.e. for every safe
run, all cursors satisfy `start ≤ end` and are pairwise disjoint.  (Streaming
concurrent with a steal of the same cursor is not safe: the worker only
respects its captured original end, see `streaming_overtakes_stolen_end`.) -/
theorem cursor_invariants (size : Nat) (ops : List Op)
    (h : safeRun (initState size) ops = true) :
    (∀ i, i < (applyOps (initState size) ops).cursors.length →
      ((applyOps (initState size) ops).cursors.getD i ⟨0, 0⟩).start ≤
        ((applyOps (initState size) ops).cursors.getD i ⟨0, 0⟩).stop) ∧
    (∀ i j, i < j → j < (applyOps (initState size) ops).cursors.length →
      Apart ((applyOps (initState size) ops).cursors.getD i ⟨0, 0⟩)
            ((applyOps (initState size) ops).cursors.getD j ⟨0, 0⟩)) := by
  obtain ⟨_, _, _, hle, _, _, hap⟩ := SysInv_run ops (initState size) (SysInv_init size) h
  exact ⟨hle, hap⟩

/-- Witness for C2: a concrete safe run (two hand-outs and a within-bounds
chunk for a 56-MiB file) in which the conclusions hold. -/
theorem cursor_invariants_witness :
    safeRun (initState 58720256) [Op.handOut, Op.handOut, Op.chunk 0 4096] = true ∧
    ((∀ i, i < (applyOps (initState 58720256)
          [Op.handOut, Op.handOut, Op.chunk 0 4096]).cursors.length →
      ((applyOps (initState 58720256)
          [Op.handOut, Op.handOut, Op.chunk 0 4096]).cursors.getD i ⟨0, 0⟩).start ≤
        ((applyOps (initState 58720256)
          [Op.handOut, Op.handOut, Op.chunk 0 4096]).cursors.getD i ⟨0, 0⟩).stop) ∧
    (∀ i j, i < j → j < (applyOps (initState 58720256)
          [Op.handOut, Op.handOut, Op.chunk 0 4096]).cursors.length →
      Apart ((applyOps (initState 58720256)
          [Op.handOut, Op.handOut, Op.chunk 0 4096]).cursors.getD i ⟨0, 0⟩)
            ((applyOps (initState 58720256)
          [Op.handOut, Op.handOut, Op.chunk 0 4096]).cursors.getD j ⟨0, 0⟩))) :=
  ⟨by decide, cursor_invariants 58720256 [Op.handOut, Op.handOut, Op.chunk 0 4096] (by decide)⟩

/-- The cursor section of the journal: each cursor encodes as its two atomic
words in order (`impl Encode for Index`, downloads/index.rs lines 13–18). -/
def encodeCursors : List Cursor → List Nat
  | [] => []
  | c :: cs => c.start :: c.stop :: encodeCursors cs

/-- `impl Encode for Download` (downloads/download.rs lines 18–39), at the level
of bincode field values (one `Nat` token per encoded integer; bincode's varint
encoding of each value is injective, so this token sequence and the byte stream
determine each other; a `bool` encodes as `0`/`1`).  The coordinator's
`range_byte.start`, `range_byte.end`, `steal_ptr` and `steal_exhausted` are
written — `total_size` is not — followed by the count and contents of only the
incomplete cursors (`start < end`). -/
def encodeDownload (d : Download) : List Nat :=
  d.coordinator.rangeByteStart :: d.coordinator.rangeByteEnd ::
  d.coordinator.steal_ptr :: (if d.coordinator.steal_exhausted then 1 else 0) ::
  (d.range.filter fun c => decide (c.start < c.stop)).length ::
  encodeCursors (d.range.filter fun c => decide (c.start < c.stop))

/-- `Coordinator::from_parts` (coordinator.rs lines 41–54) as invoked by
`Decode for Download` (downloads/download.rs lines 48–49): the decode site
passes only the four journal fields — `total_size` is not stored in the
journal and is not restored, so the reconstructed coordinator carries `0`. -/
def Coordinator.from_parts (current max_index steal_ptr : Nat)
    (steal_exhausted : Bool) : Coordinator :=
  ⟨current, max_index, steal_ptr, steal_exhausted, 0⟩

/-- Reading `len` cursors off the token stream (`impl Decode for Index`). -/
def decodeCursors : Nat → List Nat → Option (List Cursor × List Nat)
  | 0, ts => some ([], ts)
  | n + 1, s :: e :: ts =>
    match decodeCursors n ts with
    | some (cs, r) => some (⟨s, e⟩ :: cs, r)
    | none => none
  | _ + 1, _ => none

/-- `impl Decode for Download` (downloads/download.rs lines 41–67): read the
four coordinator fields, the cursor count, then the cursors; if the vector is
nonempty, clamp `steal_ptr` to `min steal_ptr (len − 1)` and bump it to `2`
when it is below `2` and at least three cursors are live. -/
def decodeDownload (ts : List Nat) : Option Download :=
  match ts with
  | current :: max_index :: sp :: ex :: len :: rest =>
    match decodeCursors len rest with
    | some (range, _) =>
      some ⟨(if range.length ≠ 0 then
               { Coordinator.from_parts current max_index sp (ex == 1) with
                 steal_ptr :=
                   if min sp (range.length - 1) < 2 ∧ 3 ≤ range.length then 2
                   else min sp (range.length - 1) }
             else Coordinator.from_parts current max_index sp (ex == 1)),
            range⟩
    | none => none
  | _ => none

theorem decodeCursors_encode (cs : List Cursor) (rest : List Nat) :
    decodeCursors cs.length (encodeCursors cs ++ rest) = some (cs, rest) := by
  induction cs with
  | nil => rfl
  | cons c cs ih => simp [encodeCursors, decodeCursors, ih]

/-- C10 counterexample: the journal does not store `total_size`, so two
distinct download states (both with no completed cursors) encode identically,
and decode ∘ encode cannot be the identity. -/
theorem journal_drops_total_size :
    encodeDownload ⟨⟨1, 4, 0, false, 100⟩, [⟨5, 9⟩]⟩
      = encodeDownload ⟨⟨1, 4, 0, false, 200⟩, [⟨5, 9⟩]⟩ ∧
    (⟨⟨1, 4, 0, false, 100⟩, [⟨5, 9⟩]⟩ : Download)
      ≠ ⟨⟨1, 4, 0, false, 200⟩, [⟨5, 9⟩]⟩ ∧
    decodeDownload (encodeDownload ⟨⟨1, 4, 0, false, 100⟩, [⟨5, 9⟩]⟩)
      ≠ some ⟨⟨1, 4, 0, false, 100⟩, [⟨5, 9⟩]⟩ := by decide

/-- C10 (amended): on download states with no completed cursors, encoding
writes the coordinator state (minus `total_size`) plus exactly the cursors with
`start < end`, and decode ∘ encode restores `range_byte`, `steal_exhausted` and
the cursor list exactly, restores `steal_ptr` up to the load-time clamp (the
identity whenever `steal_ptr` already lies in the valid live range), and loses
`total_size` (restored as `0`). -/
theorem journal_roundtrip (d : Download)
    (hinc : ∀ c ∈ d.range, c.start < c.stop) :
    encodeDownload d
      = encodeDownload { d with range := d.range.filter fun c => decide (c.start < c.stop) } ∧
    decodeDownload (encodeDownload d) = some
      ⟨(if d.range.length ≠ 0 then
          { Coordinator.from_parts d.coordinator.rangeByteStart d.coordinator.rangeByteEnd
              d.coordinator.steal_ptr d.coordinator.steal_exhausted with
            steal_ptr :=
              if min d.coordinator.steal_ptr (d.range.length - 1) < 2 ∧ 3 ≤ d.range.length
              then 2
              else min d.coordinator.steal_ptr (d.range.length - 1) }
        else Coordinator.from_parts d.coordinator.rangeByteStart d.coordinator.rangeByteEnd
              d.coordinator.steal_ptr d.coordinator.steal_exhausted),
       d.range⟩ ∧
    (2 ≤ d.coordinator.steal_ptr → d.coordinator.steal_ptr < d.range.length →
      (decodeDownload (encodeDownload d)).map (fun x => x.coordinator.steal_ptr)
        = some d.coordinator.steal_ptr) := by
  have hfil : d.range.filter (fun c => decide (c.start < c.stop)) = d.range :=
    List.filter_eq_self.mpr fun c hc => decide_eq_true (hinc c hc)
  have hdc : decodeCursors d.range.length (encodeCursors d.range) = some (d.range, []) := by
    have h := decodeCursors_encode d.range []
    simpa using h
  have hexbit : ((if d.coordinator.steal_exhausted then 1 else 0 : Nat) == 1)
      = d.coordinator.steal_exhausted := by
    cases d.coordinator.steal_exhausted <;> rfl
  have hdec : decodeDownload (encodeDownload d) = some
      ⟨(if d.range.length ≠ 0 then
          { Coordinator.from_parts d.coordinator.rangeByteStart d.coordinator.rangeByteEnd
              d.coordinator.steal_ptr d.coordinator.steal_exhausted with
            steal_ptr :=
              if min d.coordinator.steal_ptr (d.range.length - 1) < 2 ∧ 3 ≤ d.range.length
              then 2
              else min d.coordinator.steal_ptr (d.range.length - 1) }
        else Coordinator.from_parts d.coordinator.rangeByteStart d.coordinator.rangeByteEnd
              d.coordinator.steal_ptr d.coordinator.steal_exhausted),
       d.range⟩ := by
    simp only [encodeDownload, hfil, decodeDownload, hdc, hexbit]
  refine ⟨by rw [hfil], hdec, ?_⟩
  intro h2 hlt
  rw [hdec]
  have hne : d.range.length ≠ 0 := by omega
  have hmin : min d.coordinator.steal_ptr (d.range.length - 1)
      = d.coordinator.steal_ptr := by omega
  simp only [Option.map_some, if_pos hne, hmin]
  rw [if_neg (by omega)]
  rfl

/-- Witness for C10: the round trip applied to a concrete state with two
incomplete cursors and `total_size = 7`. -/
theorem journal_roundtrip_witness :
    decodeDownload (encodeDownload ⟨⟨2, 5, 1, true, 7⟩, [⟨0, 3⟩, ⟨4, 8⟩]⟩) = some
      ⟨(if ([⟨0, 3⟩, ⟨4, 8⟩] : List Cursor).length ≠ 0 then
          { Coordinator.from_parts 2 5 1 true with
            steal_ptr :=
              if min 1 (([⟨0, 3⟩, ⟨4, 8⟩] : List Cursor).length - 1) < 2
                  ∧ 3 ≤ ([⟨0, 3⟩, ⟨4, 8⟩] : List Cursor).length
              then 2
              else min 1 (([⟨0, 3⟩, ⟨4, 8⟩] : List Cursor).length - 1) }
        else Coordinator.from_parts 2 5 1 true),
       [⟨0, 3⟩, ⟨4, 8⟩]⟩ :=
  (journal_roundtrip ⟨⟨2, 5, 1, true, 7⟩, [⟨0, 3⟩, ⟨4, 8⟩]⟩ (by decide)).2.1

/-- The resume-relevant columns of a catalog record (`db.get_resume_info`):
stored ETag, Last-Modified and size, each nullable (`size` is an `i64` in the
source). -/
structure ResumeRecord where
  etag : Option String
  last_modified : Option String
  size : Option Int
deriving DecidableEq

/-- The header values extracted from the resume-time HEAD response
(`headers.rs`): server ETag, Last-Modified and Content-Length. -/
structure ServerHead where
  etag : Option String
  last_modified : Option String
  size : Option Int
deriving DecidableEq

/-- `needs_restart` from `handle_resume_downloads` (manager.rs lines 208–212). -/
def needs_restart (file_exists : Bool) (record : ResumeRecord) (server : ServerHead) : Bool :=
  !file_exists
    || (record.etag.isSome && (server.etag != record.etag))
    || (record.last_modified.isSome && (server.last_modified != record.last_modified))
    || (record.size.isSome && (server.size != record.size))

/-- The externally visible result of one iteration of
`handle_resume_downloads` for one download. -/
structure ResumeOutcome where
  needsRestart : Bool
  headersOverwritten : Bool
  progressSet : Int
  journalDeleted : Bool
  started : Option Download
deriving DecidableEq

/-- One iteration of `handle_resume_downloads` (manager.rs lines 181–262) as a
function of its inputs.  On restart the catalog headers are overwritten
(`db.update_headers`) and progress is reset to 0; otherwise progress is set to
the current file size.  In *both* cases the persisted journal is then loaded
unconditionally (`Download::load`, line 241) and that instance is run; a
failed load skips the download (`continue`).  No journal file is removed in
this path. -/
def resumeStep (record : ResumeRecord) (file_exists : Bool) (current_file_size : Int)
    (server : ServerHead) (journal : Option Download) : ResumeOutcome :=
  { needsRestart := needs_restart file_exists record server
    headersOverwritten := needs_restart file_exists record server
    progressSet := if needs_restart file_exists record server then 0 else current_file_size
    journalDeleted := false
    started := journal }

/-- C6 counterexample: with a stored ETag `"aaa"`, a server ETag `"bbb"`, the
file present and a persisted journal `j₀`, restart-from-zero is signalled —
but the journal is not deleted and the instance that is run is `j₀` itself,
not a fresh `Download` built from the server size (here `Download.new 100 8`). -/
theorem restart_reuses_stale_journal :
    (resumeStep ⟨some "aaa", none, some 100⟩ true 40 ⟨some "bbb", none, some 100⟩
        (some ⟨⟨1, 4, 2, false, 0⟩, [⟨5, 9⟩]⟩)).needsRestart = true ∧
    (resumeStep ⟨some "aaa", none, some 100⟩ true 40 ⟨some "bbb", none, some 100⟩
        (some ⟨⟨1, 4, 2, false, 0⟩, [⟨5, 9⟩]⟩)).journalDeleted = false ∧
    (resumeStep ⟨some "aaa", none, some 100⟩ true 40 ⟨some "bbb", none, some 100⟩
        (some ⟨⟨1, 4, 2, false, 0⟩, [⟨5, 9⟩]⟩)).started
      = some ⟨⟨1, 4, 2, false, 0⟩, [⟨5, 9⟩]⟩ ∧
    (⟨⟨1, 4, 2, false, 0⟩, [⟨5, 9⟩]⟩ : Download) ≠ Download.new 100 8 := by decide

/-- C6 (amended): the restart-from-zero condition is exactly as the claim
states (file missing, or a stored non-null ETag / Last-Modified / size that
differs from the server's); on restart the catalog headers are overwritten and
`bytes_received` is reset to 0, and otherwise progress is set to the current
file size — but in both cases the persisted journal is loaded and run as-is:
it is never deleted and no fresh `Download` is created on the resume path. -/
theorem resume_behaviour (record : ResumeRecord) (file_exists : Bool)
    (current_file_size : Int) (server : ServerHead) (journal : Option Download) :
    ((resumeStep record file_exists current_file_size server journal).needsRestart = true ↔
      (file_exists = false ∨
       (record.etag ≠ none ∧ server.etag ≠ record.etag) ∨
       (record.last_modified ≠ none ∧ server.last_modified ≠ record.last_modified) ∨
       (record.size ≠ none ∧ server.size ≠ record.size))) ∧
    (resumeStep record file_exists current_file_size server journal).headersOverwritten
      = (resumeStep record file_exists current_file_size server journal).needsRestart ∧
    ((resumeStep record file_exists current_file_size server journal).needsRestart = true →
      (resumeStep record file_exists current_file_size server journal).progressSet = 0) ∧
    ((resumeStep record file_exists current_file_size server journal).needsRestart = false →
      (resumeStep record file_exists current_file_size server journal).progressSet
        = current_file_size) ∧
    (resumeStep record file_exists current_file_size server journal).journalDeleted = false ∧
    (resumeStep record file_exists current_file_size server journal).started = journal := by
  refine ⟨?_, rfl, ?_, ?_, rfl, rfl⟩
  · show needs_restart file_exists record server = true ↔ _
    simp only [needs_restart, Bool.or_eq_true, Bool.and_eq_true, Bool.not_eq_true',
      bne_iff_ne, Option.isSome_iff_ne_none]
    tauto
  · intro h
    show (if needs_restart file_exists record server then (0 : Int) else current_file_size) = 0
    have h' : needs_restart file_exists record server = true := h
    rw [if_pos h']
  · intro h
    show (if needs_restart file_exists record server then (0 : Int) else current_file_size)
      = current_file_size
    have h' : needs_restart file_exists record server = false := h
    rw [h']
    simp

/-- Witness for C6: a resume with unchanged headers keeps the stored progress
and runs the persisted journal. -/
theorem resume_behaviour_witness :
    (resumeStep ⟨none, some "t1", some 50⟩ true 40 ⟨none, some "t1", some 50⟩
        (some ⟨⟨0, 2, 2, false, 0⟩, [⟨1, 3⟩]⟩)).needsRestart = false ∧
    (resumeStep ⟨none, some "t1", some 50⟩ true 40 ⟨none, some "t1", some 50⟩
        (some ⟨⟨0, 2, 2, false, 0⟩, [⟨1, 3⟩]⟩)).progressSet = 40 ∧
    (resumeStep ⟨none, some "t1", some 50⟩ true 40 ⟨none, some "t1", some 50⟩
        (some ⟨⟨0, 2, 2, false, 0⟩, [⟨1, 3⟩]⟩)).started
      = some ⟨⟨0, 2, 2, false, 0⟩, [⟨1, 3⟩]⟩ := by
  have hnr : (resumeStep ⟨none, some "t1", some 50⟩ true 40 ⟨none, some "t1", some 50⟩
      (some ⟨⟨0, 2, 2, false, 0⟩, [⟨1, 3⟩]⟩)).needsRestart = false := by decide
  obtain ⟨_, _, _, hprog, _, hstart⟩ :=
    resume_behaviour ⟨none, some "t1", some 50⟩ true 40 ⟨none, some "t1", some 50⟩
      (some ⟨⟨0, 2, 2, false, 0⟩, [⟨1, 3⟩]⟩)
  exact ⟨hnr, hprog hnr, hstart⟩

/-- Effects observable from the lifecycle manager and the per-download tasks. -/
inductive Eff where
  | abortTask : Nat → Eff
  | emitPaused : Nat → Eff
  | dbWrite : Eff
  | journalWrite : Eff
  | journalDelete : Eff
  | replyWork : Option (Nat × Nat) → Eff
deriving DecidableEq

/-- `DownloadManager::pause_instance` (manager.rs lines 271–283): remove the
identity's handle list from the live map; if present, abort every handle and
emit `download_paused_<id>`, returning `true`; otherwise return `false`.  The
catalog is not touched and no journal file is written or removed.  (The live
map is a `HashMap`; it is modelled as an association list, removal as a
filter.) -/
def pause_instance (instances : List (Nat × List Nat)) (id : Nat) :
    Bool × List (Nat × List Nat) × List Eff :=
  match instances.find? (fun p => p.1 == id) with
  | some p =>
      (true, instances.filter (fun q => q.1 != id),
       p.2.map Eff.abortTask ++ [Eff.emitPaused id])
  | none => (false, instances, [])

/-- The coordinator task spawned by `run_multi_threaded` (workers.rs lines
192–197), processing `n` `request_work` messages: its loop body only answers
each message; in particular it never writes the journal, so aborting it at a
pause point loses all progress made since the journal was saved at download
start. -/
def coordinatorTask (c : Coordinator) (cs : List Cursor) :
    Nat → Coordinator × List Cursor × List Eff
  | 0 => (c, cs, [])
  | n + 1 =>
    let t := request_work c cs MIN_STEAL_BYTES
    let rest := coordinatorTask t.1 t.2.1 n
    (rest.1, rest.2.1, Eff.replyWork t.2.2 :: rest.2.2)

theorem coordinatorTask_no_journal (n : Nat) :
    ∀ c cs, Eff.journalWrite ∉ (coordinatorTask c cs n).2.2 := by
  induction n with
  | zero => intro c cs; simp [coordinatorTask]
  | succ m ih =>
    intro c cs
    simp only [coordinatorTask, List.mem_cons]
    rintro (h | h)
    · exact absurd h (by simp)
    · exact ih _ _ h

/-- C7 counterexample: pausing identity 7 with three registered tasks aborts
them and emits the paused event, but neither the pause path nor the
coordinator task ever produces a journal write (or any catalog write) — the
claim's "the journal is written before the coordinator task terminates" does
not happen. -/
theorem pause_writes_no_journal :
    pause_instance [(7, [1, 2, 3])] 7
      = (true, [], [Eff.abortTask 1, Eff.abortTask 2, Eff.abortTask 3, Eff.emitPaused 7]) ∧
    Eff.journalWrite ∉ (pause_instance [(7, [1, 2, 3])] 7).2.2 ∧
    Eff.dbWrite ∉ (pause_instance [(7, [1, 2, 3])] 7).2.2 ∧
    Eff.journalWrite ∉ (coordinatorTask ⟨0, 4, 2, false, 58720256⟩ [] 6).2.2 := by decide

/-- C7 (amended): `pause_instance` returns `true` exactly when the identity is
registered, removes it from the live map, and aborts exactly the registered
task handles (plus the paused event); it performs no catalog write, no journal
write and no journal delete — so the journal on disk remains the one saved
when the download started, and the catalog record (in particular its absent
in-progress status) is untouched.  The coordinator task never writes the
journal before terminating. -/
theorem pause_instance_spec (instances : List (Nat × List Nat)) (id : Nat) :
    ((pause_instance instances id).1 = true ↔ ∃ p ∈ instances, p.1 = id) ∧
    (∀ p, instances.find? (fun q => q.1 == id) = some p →
      (pause_instance instances id).2.1 = instances.filter (fun q => q.1 != id) ∧
      (pause_instance instances id).2.2 = p.2.map Eff.abortTask ++ [Eff.emitPaused id]) ∧
    (∀ e ∈ (pause_instance instances id).2.2,
      e ≠ Eff.dbWrite ∧ e ≠ Eff.journalWrite ∧ e ≠ Eff.journalDelete) ∧
    (∀ n c cs, Eff.journalWrite ∉ (coordinatorTask c cs n).2.2) := by
  refine ⟨?_, ?_, ?_, fun n c cs => coordinatorTask_no_journal n c cs⟩
  · cases hf : instances.find? (fun p => p.1 == id) with
    | some p =>
      have hmem := List.mem_of_find?_eq_some hf
      have hbeq := List.find?_some hf
      have hid : p.1 = id := by
        have := of_decide_eq_true (by simpa using hbeq)
        exact this
      simp only [pause_instance, hf]
      exact ⟨fun _ => ⟨p, hmem, hid⟩, fun _ => by trivial⟩
    | none =>
      have hnone := List.find?_eq_none.mp hf
      simp only [pause_instance, hf]
      constructor
      · intro h
        exact absurd h (by simp)
      · rintro ⟨p, hp, hpid⟩
        have := hnone p hp
        simp [hpid] at this
  · intro p hf
    simp only [pause_instance, hf]
    exact ⟨by first | rfl | trivial, by first | rfl | trivial⟩
  · cases hf : instances.find? (fun p => p.1 == id) with
    | some p =>
      simp only [pause_instance, hf]
      intro e he
      rcases List.mem_append.mp he with h | h
      · obtain ⟨t, _, rfl⟩ := List.mem_map.mp h
        exact ⟨by simp, by simp, by simp⟩
      · rcases List.mem_singleton.mp h with rfl
        exact ⟨by simp, by simp, by simp⟩
    | none =>
      simp only [pause_instance, hf]
      intro e he
      exact absurd he (by simp)

/-- Witness for C7: the specification applied to a concrete live map. -/
theorem pause_instance_spec_witness :
    ((pause_instance [(3, [10, 11]), (4, [12])] 4).1 = true ↔
      ∃ p ∈ [(3, [10, 11]), (4, [12])], p.1 = 4) ∧
    (∀ e ∈ (pause_instance [(3, [10, 11]), (4, [12])] 4).2.2,
      e ≠ Eff.dbWrite ∧ e ≠ Eff.journalWrite ∧ e ≠ Eff.journalDelete) ∧
    Eff.journalWrite ∉ (coordinatorTask ⟨0, 2, 2, false, 100⟩ [] 3).2.2 := by
  obtain ⟨h1, _, h3, h4⟩ := pause_instance_spec [(3, [10, 11]), (4, [12])] 4
  exact ⟨h1, h3, h4 3 ⟨0, 2, 2, false, 100⟩ []⟩

/-- The three outcomes of the status gate in `stream_range`. -/
inductive StreamStep where
  | stream : StreamStep
  | retry : StreamStep
  | fail : StreamStep
deriving DecidableEq

/-- The status acceptance test of `stream_range` (workers.rs line 314):
proceed iff `!(status != OK && status != PARTIAL_CONTENT)`. -/
def stream_status_ok (status : Nat) : Bool := !(status != 200 && status != 206)

/-- The status gate of `stream_range` (workers.rs lines 313–326): the response
is streamed iff the status is 200 or 206; any other status is retried with
exponential backoff while `retries < retry_count`, and otherwise the segment
fails.  `has_range` mirrors `range_info.is_some()` (a range header is sent
only by the multi-worker path, `run_multi_threaded`); the source's check does
not consult it. -/
def status_step (has_range : Bool) (status retries retry_count : Nat) : StreamStep :=
  if stream_status_ok status then StreamStep.stream
  else if retries < retry_count then StreamStep.retry
  else StreamStep.fail

/-- C8 counterexample: a 200 response to a range request (multi-worker mode)
is streamed as if it were the requested range — it is not a terminal protocol
violation. -/
theorem status_200_streamed_in_range_mode :
    status_step true 200 0 3 = StreamStep.stream ∧
    StreamStep.stream ≠ StreamStep.fail := by decide

/-- C8 (amended): `stream_range` streams a response iff its status is 200 or
206, identically in single- and multi-worker mode (the check never consults
whether a `Range` header was sent); any other status — including would-be
protocol violations — is retried up to `retry_count` times and only then does
the segment fail. -/
theorem status_step_spec (has_range : Bool) (status retries retry_count : Nat) :
    (status_step has_range status retries retry_count = StreamStep.stream ↔
      (status = 200 ∨ status = 206)) ∧
    status_step has_range status retries retry_count
      = status_step (!has_range) status retries retry_count ∧
    (status ≠ 200 → status ≠ 206 → retries < retry_count →
      status_step has_range status retries retry_count = StreamStep.retry) ∧
    (status ≠ 200 → status ≠ 206 → retry_count ≤ retries →
      status_step has_range status retries retry_count = StreamStep.fail) := by
  have hok : stream_status_ok status = true ↔ (status = 200 ∨ status = 206) := by
    simp [stream_status_ok]
  refine ⟨?_, rfl, ?_, ?_⟩
  · by_cases h : stream_status_ok status = true
    · rw [status_step, if_pos h]
      simp [hok.mp h]
    · rw [status_step, if_neg h]
      have hne := (not_iff_not.mpr hok).mp h
      by_cases hr : retries < retry_count
      · rw [if_pos hr]
        simp [hne]
      · rw [if_neg hr]
        simp [hne]
  · intro h1 h2 hr
    have h : stream_status_ok status = false := by
      rcases Bool.eq_false_or_eq_true (stream_status_ok status) with h | h
      · rcases hok.mp h with h' | h' <;> omega
      · exact h
    rw [status_step, if_neg (by simp [h]), if_pos hr]
  · intro h1 h2 hr
    have h : stream_status_ok status = false := by
      rcases Bool.eq_false_or_eq_true (stream_status_ok status) with h | h
      · rcases hok.mp h with h' | h' <;> omega
      · exact h
    rw [status_step, if_neg (by simp [h]), if_neg (by omega : ¬retries < retry_count)]

/-- Witness for C8: a 503 with one retry left is retried; a 206 streams. -/
theorem status_step_spec_witness :
    status_step true 503 1 3 = StreamStep.retry ∧
    (status_step false 206 0 3 = StreamStep.stream ↔ (206 = 200 ∨ 206 = 206)) := by
  refine ⟨(status_step_spec true 503 1 3).2.2.1 (by omega) (by omega) (by omega),
    (status_step_spec false 206 0 3).1⟩

/-- C9: the per-URL tail of `handle_new_downloads` (manager.rs lines 150–163)
composed with `run_download`'s mode switch (workers.rs lines 67–92): the
download is constructed and run with `size.unwrap_or(0)` as `total_size`, and
the number of streaming tasks is `num_threads` in multi mode and 1 in single
mode.  `accept_ranges` (`supports_resume`) is stored in the catalog but not
consulted here. -/
def workers_used (size : Option Nat) (accept_ranges : Bool) (num_threads : Nat) : Nat :=
  if multi_threaded (size.getD 0) then num_threads else 1

/-- C9 counterexample: a 64-MiB download from a server without
`Accept-Ranges: bytes` still runs with all `num_threads` workers — the claimed
implication `accept_ranges = false ⇒ one worker` fails. -/
theorem accept_ranges_ignored :
    workers_used (some 67108864) false 4 = 4 ∧ 4 ≠ 1 := by decide

/-- C9 (amended): an unknown `total_size` does fall back to a single worker
(`size.unwrap_or(0)` fails the 32-MiB threshold, and the single path performs
plain streaming with no coordinator, so stealing is disabled); but for a known
size the worker count depends only on `total_size > RANGE[2].end << 23`
(32 MiB) — `accept_ranges` has no influence on it. -/
theorem workers_used_spec (accept_ranges : Bool) (num_threads : Nat) :
    workers_used none accept_ranges num_threads = 1 ∧
    (∀ sz, workers_used (some sz) accept_ranges num_threads
      = if rangeStop 2 <<< 23 < sz then num_threads else 1) ∧
    (∀ sz, workers_used (some sz) true num_threads
      = workers_used (some sz) false num_threads) := by
  refine ⟨?_, ?_, fun sz => rfl⟩
  · have h : multi_threaded ((none : Option Nat).getD 0) = false := by decide
    rw [workers_used, h]
    simp
  · intro sz
    by_cases h : rangeStop 2 <<< 23 < sz
    · rw [workers_used, if_pos h]
      have hm : multi_threaded ((some sz).getD 0) = true := decide_eq_true h
      rw [hm]
      simp
    · rw [workers_used, if_neg h]
      have hm : multi_threaded ((some sz).getD 0) = false := decide_eq_false h
      rw [hm]
      simp

/-- Witness for C9: unknown size gives one worker; a 40-MB known size gives
`num_threads` workers by the threshold. -/
theorem workers_used_spec_witness :
    workers_used none true 8 = 1 ∧
    workers_used (some 40000000) true 8
      = (if rangeStop 2 <<< 23 < 40000000 then 8 else 1) :=
  ⟨(workers_used_spec true 8).1, (workers_used_spec true 8).2.1 40000000⟩
